import Mathlib

/-
Verification of the token-stream model, rendering engine and JavaScript import
collation of the genco code-generation toolkit.

The Rust sources are embedded shallowly:

* `tokens/tokens.rs` (`Tokens`, its mutators, `Tokens::format`, `WalkImports`)
  is translated directly.  The `Vec<Item>` is stored in reverse order (head of
  the list = most recently pushed item), so that the source's `push`/`pop`/
  `last` on the vector become `cons`/tail/head on the list.
* `lang/js.rs` (`JavaScript::imports`, `write_file`, the import item types and
  the string-escape table) is translated directly; `BTreeMap`/`BTreeSet` become
  sorted, deduplicated association lists / lists.
* the `fmt` module (the `Formatter` sink) is not part of the sources under
  verification; it is modelled from the specification's sink layout state
  machine together with the doctests of `tokens.rs`.

Machine integers: the indentation delta is an `i16` in the source
(`NonZeroI16`); its `+ 1` / `- 1` arithmetic is modelled with explicit
two's-complement wrap-around (`wrapI16`: reduction modulo 2^16 into
[-32768, 32767], the release-build behaviour of the source's overflow).
-/

set_option autoImplicit false
set_option linter.unusedVariables false

namespace Genco

/-- `ItemStr` (the string payload of items): owned or borrowed string in the
source; modelled as `String` with its lexical order (spec section 3 requires a
total, deterministic, lexical order on import descriptors). -/
abbrev ItemStr := String

/-- `Item` (tokens/item.rs, as used by tokens.rs): the closed set of token
kinds.  `L` is the opaque per-language item type (`LangBox`/`Registered`
payload). -/
inductive Item (L : Type) where
  | literal (s : ItemStr)
  | openQuote (hasEval : Bool)
  | closeQuote
  | space
  | push
  | line
  | indentation (n : Int)
  | openEval
  | closeEval
  | langBox (it : L)
  | registered (it : L)
  deriving DecidableEq, Repr

/-- Two's-complement wrap-around of `i16` arithmetic: the source computes
`level.get() + 1` / `level.get() - 1` on the `i16` inside a `NonZeroI16`,
which wraps past the type's range in release builds. -/
def wrapI16 (x : Int) : Int := (x + 32768) % 65536 - 32768

/-- `Tokens` (tokens/tokens.rs): an ordered container of items.  The items are
stored in reverse order: the head of `items` is the most recently pushed item
(the source's `items.last()`). -/
structure Tokens (L : Type) where
  items : List (Item L)
  deriving DecidableEq, Repr

namespace Tokens

variable {L : Type}

/-- `Tokens::new`. -/
def new : Tokens L := ⟨[]⟩

/-- `Tokens::is_empty`. -/
def is_empty (t : Tokens L) : Bool := t.items.isEmpty

/-- `Tokens::space`: a second space in sequence is ignored. -/
def space (t : Tokens L) : Tokens L :=
  match t.items with
  | Item.space :: _ => t
  | _ => ⟨Item.space :: t.items⟩

/-- `Tokens::push`: a push after a push or a line does nothing. -/
def push (t : Tokens L) : Tokens L :=
  match t.items with
  | Item.push :: _ => t
  | Item.line :: _ => t
  | _ => ⟨Item.push :: t.items⟩

/-- `Tokens::line`: pops the last item; a trailing push or line (or an empty
stream) is replaced by a single line, anything else is put back and followed
by a line. -/
def line (t : Tokens L) : Tokens L :=
  match t.items with
  | Item.push :: rest => ⟨Item.line :: rest⟩
  | Item.line :: rest => ⟨Item.line :: rest⟩
  | [] => ⟨[Item.line]⟩
  | other :: rest => ⟨Item.line :: other :: rest⟩

/-- `Tokens::indent`: accumulates `+1` in `i16` on a trailing indentation
item (the addition wraps at the `i16` range; `NonZeroI16::new` drops the item
when the wrapped sum is zero), else appends a new item with delta `1`. -/
def indent (t : Tokens L) : Tokens L :=
  match t.items with
  | Item.indentation lv :: rest =>
      if wrapI16 (lv + 1) = 0 then ⟨rest⟩
      else ⟨Item.indentation (wrapI16 (lv + 1)) :: rest⟩
  | _ => ⟨Item.indentation 1 :: t.items⟩

/-- `Tokens::unindent`: accumulates `-1` in `i16` on a trailing indentation
item (wrapping like `indent`), else appends a new item with delta `-1`. -/
def unindent (t : Tokens L) : Tokens L :=
  match t.items with
  | Item.indentation lv :: rest =>
      if wrapI16 (lv - 1) = 0 then ⟨rest⟩
      else ⟨Item.indentation (wrapI16 (lv - 1)) :: rest⟩
  | _ => ⟨Item.indentation (-1) :: t.items⟩

/-- `Tokens::item`: push a single item while checking the structural
guarantees (`Push`/`Line`/`Space` are routed through their mutators). -/
def item (t : Tokens L) (i : Item L) : Tokens L :=
  match i with
  | Item.push => t.push
  | Item.line => t.line
  | Item.space => t.space
  | other => ⟨other :: t.items⟩

/-- `Tokens::literal`. -/
def literal (t : Tokens L) (s : ItemStr) : Tokens L :=
  t.item (Item.literal s)

/-- `Tokens::quoted`: brackets the literal with `OpenQuote(false)`/`CloseQuote`. -/
def quoted (t : Tokens L) (s : ItemStr) : Tokens L :=
  ((t.item (Item.openQuote false)).item (Item.literal s)).item Item.closeQuote

/-- `Tokens::extend`: bulk insert, item by item (given in stream order). -/
def extend (t : Tokens L) (l : List (Item L)) : Tokens L :=
  l.foldl item t

/-- `Tokens::register` for a single language item: inserts it as a
`Registered` item. -/
def register (t : Tokens L) (x : L) : Tokens L :=
  t.item (Item.registered x)

/-- Stream-order view of the items (first appended item first). -/
def stream (t : Tokens L) : List (Item L) := t.items.reverse

end Tokens

/-- Import-identity projection of a single item: `LangBox` and `Registered`
expose their language item's `as_import()`, every other item is skipped. -/
def projectItem {L I : Type} (proj : L → Option I) : Item L → Option I
  | Item.langBox l => proj l
  | Item.registered l => proj l
  | _ => none

/-- `WalkImports::next` (tokens/tokens.rs): advance over the remaining item
queue until an item with an import identity is found; returns it together with
the rest of the queue. -/
def walkNext {L I : Type} (proj : L → Option I) : List (Item L) → Option (I × List (Item L))
  | [] => none
  | i :: rest =>
      match projectItem proj i with
      | some imp => some (imp, rest)
      | none => walkNext proj rest

/-- Exhausting the `WalkImports` iterator: the finite sequence of import
descriptors it produces, in stream order (the lemma `walkAll_walkNext`
identifies this with repeatedly calling `walkNext`). -/
def walkAll {L I : Type} (proj : L → Option I) : List (Item L) → List I
  | [] => []
  | i :: rest =>
      match projectItem proj i with
      | some imp => imp :: walkAll proj rest
      | none => walkAll proj rest

/-- `Tokens::walk_imports`, run to completion: each call constructs a fresh
iterator over the items, so the traversal restarts from the beginning. -/
def Tokens.walk_imports {L I : Type} (proj : L → Option I) (t : Tokens L) : List I :=
  walkAll proj t.stream

/-- Streams built exclusively through the public mutators of `Tokens`
(`append` of primitive values reduces to `item`/`literal` calls, so it is
covered by the `item`, `literal`, `quoted` and `extend` constructors). -/
inductive Built {L : Type} : Tokens L → Prop where
  | new : Built Tokens.new
  | item (t : Tokens L) (i : Item L) : Built t → Built (t.item i)
  | literal (t : Tokens L) (s : ItemStr) : Built t → Built (t.literal s)
  | quoted (t : Tokens L) (s : ItemStr) : Built t → Built (t.quoted s)
  | space (t : Tokens L) : Built t → Built t.space
  | push (t : Tokens L) : Built t → Built t.push
  | line (t : Tokens L) : Built t → Built t.line
  | indent (t : Tokens L) : Built t → Built t.indent
  | unindent (t : Tokens L) : Built t → Built t.unindent
  | extend (t : Tokens L) (l : List (Item L)) : Built t → Built (t.extend l)
  | register (t : Tokens L) (x : L) : Built t → Built (t.register x)

/-- The four adjacency constraints of the claimed structural invariant:
`prev` immediately followed by `next` in stream order must not be
space-space, push-push, push-line or line-line. -/
def invPair {L : Type} (prev next : Item L) : Bool :=
  match prev, next with
  | Item.space, Item.space => false
  | Item.push, Item.push => false
  | Item.push, Item.line => false
  | Item.line, Item.line => false
  | _, _ => true

/-- The adjacency constraints strengthened with the implicit one of claim
C10: a line is never immediately followed by a push. -/
def strongPair {L : Type} (prev next : Item L) : Bool :=
  invPair prev next &&
    (match prev, next with
     | Item.line, Item.push => false
     | _, _ => true)

/-- Check a pairwise adjacency constraint over a reversed item list (head is
the most recent item, so `next :: prev :: ...`). -/
def chainBy {L : Type} (p : Item L → Item L → Bool) : List (Item L) → Bool
  | next :: prev :: rest => p prev next && chainBy p (prev :: rest)
  | _ => true

/-- Only the implicit line-push adjacency constraint of claim C10. -/
def noLinePush {L : Type} (prev next : Item L) : Bool :=
  match prev, next with
  | Item.line, Item.push => false
  | _, _ => true

/-- A sequence of `indent()`/`unindent()` calls (`true` = indent) applied in
order. -/
def applyIndentCalls {L : Type} (t : Tokens L) : List Bool → Tokens L
  | [] => t
  | c :: cs => applyIndentCalls (if c then t.indent else t.unindent) cs

/-- Net signed effect of a sequence of `indent()`/`unindent()` calls. -/
def netDelta : List Bool → Int
  | [] => 0
  | c :: cs => (if c then 1 else -1) + netDelta cs

/-- Pending newline state of the output sink. -/
inductive PendingLine where
  | start
  | mid
  | pendPush
  | pendLine
  deriving DecidableEq, Repr

/-- Modelled from the spec: the `fmt::Formatter` sink layout state machine
(spec section 4.2a) — its source module is not under verification.  The sink
tracks the pending indentation level and whether a new line or a blank line is
owed before the next non-whitespace write; whitespace directives only update
this pending state, so trailing directives with no following content produce
no visible output.  The behaviour is pinned down by the doctests of
`tokens.rs` (leading space, push/line/indent/unindent examples).  The
indentation unit is fixed at four spaces (the default configuration, spec
section 8 scenario 3). -/
structure Formatter where
  buf : String
  indentLevel : Int
  pending : PendingLine
  pendingSpace : Bool
  deriving DecidableEq, Repr

/-- Modelled from the spec: rendering clamps the effective printed
indentation to zero (`Int.toNat` maps negative levels to `0`) without
touching the stored level. -/
def indentString (lvl : Int) : String :=
  String.mk (List.replicate (4 * lvl.toNat) ' ')

namespace Formatter

/-- A fresh sink: empty output, nothing pending. -/
def init : Formatter := ⟨"", 0, PendingLine.start, false⟩

/-- Modelled from the spec: a pending space directive. -/
def space (f : Formatter) : Formatter := { f with pendingSpace := true }

/-- Modelled from the spec: a pending push directive — inert at the very
start of the output and superseded by a pending blank line. -/
def push (f : Formatter) : Formatter :=
  match f.pending with
  | PendingLine.start => { f with pendingSpace := false }
  | PendingLine.pendLine => { f with pendingSpace := false }
  | _ => { f with pending := PendingLine.pendPush, pendingSpace := false }

/-- Modelled from the spec: a pending blank-line directive — inert at the
very start of the output. -/
def line (f : Formatter) : Formatter :=
  match f.pending with
  | PendingLine.start => { f with pendingSpace := false }
  | _ => { f with pending := PendingLine.pendLine, pendingSpace := false }

/-- Modelled from the spec: an indentation delta also acts like a push
(doc of `Tokens::indent`); the stored level is changed without clamping. -/
def indentation (f : Formatter) (n : Int) : Formatter :=
  { f.push with indentLevel := f.indentLevel + n }

/-- The text that a pending state materialises into when the next
non-whitespace write happens. -/
def flushText (f : Formatter) : String :=
  (match f.pending with
   | PendingLine.start => indentString f.indentLevel
   | PendingLine.mid => ""
   | PendingLine.pendPush => "\n" ++ indentString f.indentLevel
   | PendingLine.pendLine => "\n\n" ++ indentString f.indentLevel)
  ++ (if f.pendingSpace then " " else "")

/-- Modelled from the spec: a non-whitespace write first materialises the
pending whitespace, then appends the text; an empty write does nothing. -/
def writeStr (f : Formatter) (s : String) : Formatter :=
  if s = "" then f
  else
    { f with
      buf := f.buf ++ f.flushText ++ s
      pending := PendingLine.mid
      pendingSpace := false }

end Formatter

deriving instance DecidableEq for Except

/-- The language hooks used by `Tokens::format` (the `Lang` trait methods of
the render pass, with the per-render `config`/`format` arguments folded in):
each hook yields the text it writes to the sink. -/
structure LangHooks (L : Type) where
  writeQuoted : String → String
  openQuote : Bool → String
  closeQuote : Bool → String
  evalLiteral : String → String
  startEval : String
  endEval : String
  fmtItem : L → String

/-- The render-time quoting frame of `Tokens::format`. -/
structure Frame where
  in_quote : Bool
  has_eval : Bool
  end_on_eval : Bool
  deriving DecidableEq, Repr

/-- The initial frame (`Frame::default()`). -/
def Frame.base : Frame := ⟨false, false, false⟩

/-- The main loop of `Tokens::format` (tokens/tokens.rs): consumes the items
in stream order, threading the frame stack and the sink; a quote/eval state
violation aborts with `Err` (`std::fmt::Error` carries no data, modelled as
`Unit`).  The loop also stops (successfully) when the frame stack is empty,
mirroring the `while let` condition; the final frame stack is returned
alongside the sink. -/
def formatLoop {L : Type} (H : LangHooks L) :
    List (Item L) → List Frame → Formatter → Except Unit (List Frame × Formatter)
  | [], stack, out => Except.ok (stack, out)
  | _ :: _, [], out => Except.ok ([], out)
  | Item.registered _ :: rest, f :: fs, out => formatLoop H rest (f :: fs) out
  | Item.literal lit :: rest, f :: fs, out =>
      if f.in_quote then formatLoop H rest (f :: fs) (out.writeStr (H.writeQuoted lit))
      else formatLoop H rest (f :: fs) (out.writeStr lit)
  | Item.openQuote e :: rest, f :: fs, out =>
      if f.in_quote then Except.error ()
      else formatLoop H rest ({ f with in_quote := true, has_eval := e } :: fs)
             (out.writeStr (H.openQuote e))
  | Item.closeQuote :: rest, f :: fs, out =>
      if f.in_quote then
        formatLoop H rest ({ f with in_quote := false, has_eval := false } :: fs)
          (out.writeStr (H.closeQuote f.has_eval))
      else Except.error ()
  | Item.langBox l :: rest, f :: fs, out => formatLoop H rest (f :: fs) (out.writeStr (H.fmtItem l))
  | Item.push :: rest, f :: fs, out => formatLoop H rest (f :: fs) out.push
  | Item.line :: rest, f :: fs, out => formatLoop H rest (f :: fs) out.line
  | Item.space :: rest, f :: fs, out => formatLoop H rest (f :: fs) out.space
  | Item.indentation n :: rest, f :: fs, out => formatLoop H rest (f :: fs) (out.indentation n)
  | Item.openEval :: Item.literal lit :: Item.closeEval :: rest2, f :: fs, out =>
      -- the cursor peeks two items ahead: a lone literal directly followed by
      -- the closing eval is rendered through the direct interpolation hook
      if f.in_quote then formatLoop H rest2 (f :: fs) (out.writeStr (H.evalLiteral lit))
      else Except.error ()
  | Item.openEval :: rest, f :: fs, out =>
      if f.in_quote then
        formatLoop H rest (⟨false, false, true⟩ :: f :: fs) (out.writeStr H.startEval)
      else Except.error ()
  | Item.closeEval :: rest, f :: fs, out =>
      if f.end_on_eval then formatLoop H rest fs (out.writeStr H.endEval)
      else Except.error ()

/-- `Tokens::format`: run the loop from a single default frame. -/
def Tokens.format {L : Type} (H : LangHooks L) (t : Tokens L) (out : Formatter) :
    Except Unit Formatter :=
  (formatLoop H t.stream [Frame.base] out).map (fun r => r.2)

/-- The quote/eval state violations of the render pass: a `CloseQuote`
outside a quote, an `OpenQuote` inside a quote, an `OpenEval` outside a
quote, a `CloseEval` when the current frame is not tagged `end_on_eval`. -/
def stepViolation {L : Type} : Item L → Frame → Bool
  | Item.openQuote _, f => f.in_quote
  | Item.closeQuote, f => !f.in_quote
  | Item.openEval, f => !f.in_quote
  | Item.closeEval, f => !f.end_on_eval
  | _, _ => false

/-- The items remaining after a single non-violating step of the loop. -/
def nextItems {L : Type} (i : Item L) (rest : List (Item L)) : List (Item L) :=
  match i, rest with
  | Item.openEval, Item.literal _ :: Item.closeEval :: rest2 => rest2
  | _, _ => rest

/-- The frame stack after a single non-violating step of the loop. -/
def nextStack {L : Type} (i : Item L) (rest : List (Item L)) (f : Frame) (fs : List Frame) :
    List Frame :=
  match i with
  | Item.openQuote e => { f with in_quote := true, has_eval := e } :: fs
  | Item.closeQuote => { f with in_quote := false, has_eval := false } :: fs
  | Item.openEval =>
      (match rest with
       | Item.literal _ :: Item.closeEval :: _ => f :: fs
       | _ => (⟨false, false, true⟩ : Frame) :: f :: fs)
  | Item.closeEval => fs
  | _ => f :: fs

/-- The sink after a single non-violating step of the loop. -/
def nextOut {L : Type} (H : LangHooks L) (i : Item L) (rest : List (Item L)) (f : Frame)
    (out : Formatter) : Formatter :=
  match i with
  | Item.registered _ => out
  | Item.literal lit =>
      if f.in_quote then out.writeStr (H.writeQuoted lit) else out.writeStr lit
  | Item.openQuote e => out.writeStr (H.openQuote e)
  | Item.closeQuote => out.writeStr (H.closeQuote f.has_eval)
  | Item.langBox l => out.writeStr (H.fmtItem l)
  | Item.push => out.push
  | Item.line => out.line
  | Item.space => out.space
  | Item.indentation n => out.indentation n
  | Item.openEval =>
      (match rest with
       | Item.literal lit :: Item.closeEval :: _ => out.writeStr (H.evalLiteral lit)
       | _ => out.writeStr H.startEval)
  | Item.closeEval => out.writeStr H.endEval

/-- A run of the render loop encounters a quote/eval state violation: either
the head item violates the current frame right away, or a legal step leads to
a configuration that does. -/
inductive FormatFault {L : Type} : List (Item L) → List Frame → Prop where
  | hit (i : Item L) (rest : List (Item L)) (f : Frame) (fs : List Frame) :
      stepViolation i f = true → FormatFault (i :: rest) (f :: fs)
  | step (i : Item L) (rest : List (Item L)) (f : Frame) (fs : List Frame) :
      stepViolation i f = false →
      FormatFault (nextItems i rest) (nextStack i rest f fs) →
      FormatFault (i :: rest) (f :: fs)

/-- Proof device for relating runs of the render loop: the same loop with
the two-item cursor peek disabled, so that an `OpenEval` inside a quote
always takes the frame-pushing branch.  `formatLoop_eq_formatPlain` shows the
two agree whenever the direct literal-interpolation hook emits the same text
as marker-wrapped interpolation. -/
def formatPlain {L : Type} (H : LangHooks L) :
    List (Item L) → List Frame → Formatter → Except Unit (List Frame × Formatter)
  | [], stack, out => Except.ok (stack, out)
  | _ :: _, [], out => Except.ok ([], out)
  | Item.registered _ :: rest, f :: fs, out => formatPlain H rest (f :: fs) out
  | Item.literal lit :: rest, f :: fs, out =>
      if f.in_quote then formatPlain H rest (f :: fs) (out.writeStr (H.writeQuoted lit))
      else formatPlain H rest (f :: fs) (out.writeStr lit)
  | Item.openQuote e :: rest, f :: fs, out =>
      if f.in_quote then Except.error ()
      else formatPlain H rest ({ f with in_quote := true, has_eval := e } :: fs)
             (out.writeStr (H.openQuote e))
  | Item.closeQuote :: rest, f :: fs, out =>
      if f.in_quote then
        formatPlain H rest ({ f with in_quote := false, has_eval := false } :: fs)
          (out.writeStr (H.closeQuote f.has_eval))
      else Except.error ()
  | Item.langBox l :: rest, f :: fs, out => formatPlain H rest (f :: fs) (out.writeStr (H.fmtItem l))
  | Item.push :: rest, f :: fs, out => formatPlain H rest (f :: fs) out.push
  | Item.line :: rest, f :: fs, out => formatPlain H rest (f :: fs) out.line
  | Item.space :: rest, f :: fs, out => formatPlain H rest (f :: fs) out.space
  | Item.indentation n :: rest, f :: fs, out => formatPlain H rest (f :: fs) (out.indentation n)
  | Item.openEval :: rest, f :: fs, out =>
      if f.in_quote then
        formatPlain H rest (⟨false, false, true⟩ :: f :: fs) (out.writeStr H.startEval)
      else Except.error ()
  | Item.closeEval :: rest, f :: fs, out =>
      if f.end_on_eval then formatPlain H rest fs (out.writeStr H.endEval)
      else Except.error ()

/-- Remove every `Registered` item from an item list. -/
def eraseRegistered {L : Type} : List (Item L) → List (Item L)
  | [] => []
  | Item.registered _ :: rest => eraseRegistered rest
  | i :: rest => i :: eraseRegistered rest

/-- The same stream with every `Registered` item removed. -/
def stripRegistered {L : Type} (t : Tokens L) : Tokens L :=
  ⟨eraseRegistered t.items⟩

/-- The language items of the JavaScript specialization (lang/js.rs):
`Import` (a named import with an optional alias), `ImportDefault` (the
default import of a module) and `Local` (a bare local name). -/
inductive JsItem where
  | Import (module : ItemStr) (name : ItemStr) (al : Option ItemStr)
  | ImportDefault (module : ItemStr) (name : ItemStr)
  | Local (name : ItemStr)
  deriving DecidableEq, Repr

/-- `as_import()`: `Import` and `ImportDefault` expose themselves, `Local`
does not. -/
def JsItem.as_import : JsItem → Option JsItem
  | JsItem.Local _ => none
  | x => some x

/-- The escape table of `JavaScript::quote_string` (lang/js.rs), for a single
character of the quoted text. -/
def jsEscapeChar (c : Char) : String :=
  if c = '\t' then "\\t"
  else if c = '\u0007' then "\\b"
  else if c = '\n' then "\\n"
  else if c = '\r' then "\\r"
  else if c = '\u0014' then "\\f"
  else if c = '\'' then "\\'"
  else if c = '"' then "\\\""
  else if c = '\\' then "\\\\"
  else String.singleton c

/-- JavaScript string escaping applied to a whole literal (the body of
`JavaScript::quote_string`, without the surrounding delimiters which the
quote-open/quote-close hooks emit). -/
def jsEscape (s : String) : String :=
  String.join (s.data.map jsEscapeChar)

/-- The JavaScript language hooks.  The escape table comes from
`JavaScript::quote_string` in lang/js.rs; the quote delimiter and
interpolation hooks are modelled from the spec (section 4.3: double quote for
plain strings, backtick for interpolating ones; `${`/`}` interpolation
markers, with the direct literal interpolation equal to marker-wrapped
text). -/
def jsHooks : LangHooks JsItem where
  writeQuoted := jsEscape
  openQuote := fun hasEval => if hasEval then "`" else "\""
  closeQuote := fun hasEval => if hasEval then "`" else "\""
  evalLiteral := fun l => "$\x7b" ++ l ++ "\x7d"
  startEval := "$\x7b"
  endEval := "\x7d"
  fmtItem := fun it =>
    match it with
    | JsItem.Import _ name al => al.getD name
    | JsItem.ImportDefault _ name => name
    | JsItem.Local name => name

/-- `ImportedElement` (lang/js.rs, inside `JavaScript::imports`): a
named import entry of one module, plain or aliased. -/
inductive ImportedElement where
  | Plain (name : ItemStr)
  | Aliased (name : ItemStr) (al : ItemStr)
  deriving DecidableEq, Repr

/-- Strict lexicographic comparison of character lists (the total order on
string keys required by the spec; it agrees with the byte-lexicographic
`Ord` of Rust string slices on valid UTF-8). -/
def charsLt : List Char → List Char → Bool
  | [], [] => false
  | [], _ :: _ => true
  | _ :: _, [] => false
  | a :: as, b :: bs =>
      if a.toNat < b.toNat then true
      else if b.toNat < a.toNat then false
      else charsLt as bs

/-- Strict lexicographic comparison of strings. -/
def strLt (a b : ItemStr) : Bool := charsLt a.data b.data

/-- Strict order on `ImportedElement`, mirroring the derived `Ord` of the
source: variant order first (`Plain` before `Aliased`), then the fields
lexicographically. -/
def elLt (a b : ImportedElement) : Bool :=
  match a, b with
  | ImportedElement.Plain n1, ImportedElement.Plain n2 => strLt n1 n2
  | ImportedElement.Plain _, ImportedElement.Aliased _ _ => true
  | ImportedElement.Aliased _ _, ImportedElement.Plain _ => false
  | ImportedElement.Aliased n1 a1, ImportedElement.Aliased n2 a2 =>
      if strLt n1 n2 then true
      else if strLt n2 n1 then false
      else strLt a1 a2

/-- Insert into a sorted, deduplicated list (the `BTreeSet::insert` of the
source: elements are kept in increasing `lt` order, an equal element is not
duplicated). -/
def sinsert {α : Type} [DecidableEq α] (lt : α → α → Bool) (a : α) : List α → List α
  | [] => [a]
  | b :: rest =>
      if lt a b then a :: b :: rest
      else if a = b then b :: rest
      else b :: sinsert lt a rest

/-- `Module` (lang/js.rs, inside `JavaScript::imports`): the per-module
collation state — at most one default import and a sorted, deduplicated set
of named entries. -/
structure Module where
  default_import : Option ItemStr
  set : List ImportedElement
  deriving DecidableEq, Repr

/-- `Module::default()`. -/
def Module.empty : Module := ⟨none, []⟩

/-- The `BTreeMap::entry(..).or_default()` + update of the source: the map is
a association list sorted by module key; a missing key is inserted at its
ordered position with a default module, an existing entry is updated in
place. -/
def insertModule (m : ItemStr) (f : Module → Module) :
    List (ItemStr × Module) → List (ItemStr × Module)
  | [] => [(m, f Module.empty)]
  | (k, v) :: rest =>
      if strLt m k then (m, f Module.empty) :: (k, v) :: rest
      else if m = k then (k, f v) :: rest
      else (k, v) :: insertModule m f rest

/-- One iteration of the descriptor loop of `JavaScript::imports`: a
named import is inserted into the module's set (plain or aliased), a
default import overwrites the module's `default_import` field, anything
else is skipped. -/
def collectStep (acc : List (ItemStr × Module)) (d : JsItem) : List (ItemStr × Module) :=
  match d with
  | JsItem.Import module name al =>
      insertModule module
        (fun M =>
          { M with
            set :=
              sinsert elLt
                (match al with
                 | none => ImportedElement.Plain name
                 | some a => ImportedElement.Aliased name a)
                M.set })
        acc
  | JsItem.ImportDefault module name =>
      insertModule module (fun M => { M with default_import := some name }) acc
  | JsItem.Local _ => acc

/-- The grouping pass of `JavaScript::imports` over the walked descriptor
sequence. -/
def collectModules (ds : List JsItem) : List (ItemStr × Module) :=
  ds.foldl collectStep []

/-- Emission of a single named entry (`Plain` → `name`, `Aliased` →
`name as alias`, built through the checked mutators like the source's
`quote_in!`). -/
def emitElement (o : Tokens JsItem) (e : ImportedElement) : Tokens JsItem :=
  match e with
  | ImportedElement.Plain name => o.literal name
  | ImportedElement.Aliased name al =>
      ((((o.literal name).space).literal "as").space).literal al

/-- The peekable element loop of `JavaScript::imports`: elements separated by
a comma and a space, no trailing separator. -/
def emitElements (o : Tokens JsItem) : List ImportedElement → Tokens JsItem
  | [] => o
  | [e] => emitElement o e
  | e :: rest => emitElements (((emitElement o e).literal ",").space) rest

/-- Emission of one module's import statement (the body of the per-module
loop of `JavaScript::imports`): a push, then
`import <default><, >{<elements>} from "<module>";` with the default part and
the brace block each present only when non-empty. -/
def emitModule (o : Tokens JsItem) (p : ItemStr × Module) : Tokens JsItem :=
  let o1 := ((o.push).literal "import").space
  let o2 :=
    match p.2.default_import with
    | some d =>
        let od := o1.literal d
        if p.2.set.isEmpty then od else ((od.literal ",").space)
    | none => o1
  let o3 :=
    if p.2.set.isEmpty then o2
    else (emitElements (o2.literal "\x7b") p.2.set).literal "\x7d"
  let o4 := (((o3.space).literal "from").space).quoted p.1
  o4.literal ";"

/-- `JavaScript::imports` (lang/js.rs): walk the imports of `tokens`, group
them per module, and append one import statement per module (in map order)
followed by a blank line to `output`; nothing is appended when there
are no imports. -/
def JavaScript.imports (tokens output : Tokens JsItem) : Tokens JsItem :=
  let modules := collectModules (Tokens.walk_imports JsItem.as_import tokens)
  if modules.isEmpty then output
  else (modules.foldl emitModule output).line

/-- `JavaScript::write_file` (lang/js.rs): fresh tokens, the import preamble,
then the body extended item by item, rendered with `Tokens::format`. -/
def JavaScript.write_file (tokens : Tokens JsItem) (out : Formatter) :
    Except Unit Formatter :=
  let toks := JavaScript.imports tokens Tokens.new
  let toks := toks.extend tokens.stream
  Tokens.format jsHooks toks out

/-- Follows the spec's words (section 4.4, step 4): a named entry renders as
`name` or `name as alias`. -/
def elementSpec : ImportedElement → String
  | ImportedElement.Plain name => name
  | ImportedElement.Aliased name al => name ++ " as " ++ al

/-- Join a list of strings with a separator. -/
def joinSep (sep : String) : List String → String
  | [] => ""
  | [x] => x
  | x :: xs => x ++ sep ++ joinSep sep xs

/-- Follows the spec's words (section 4.4, step 4): one import statement per
module — the default name first if present, then a braced, comma-joined list
of the named imports; the brace block is omitted entirely when the module
has only a default import. -/
def importStatementSpec (m : ItemStr) (M : Module) : String :=
  "import "
    ++ (match M.default_import with
        | some d => d ++ (if M.set.isEmpty then "" else ", ")
        | none => "")
    ++ (if M.set.isEmpty then ""
        else "\x7b" ++ joinSep ", " (M.set.map elementSpec) ++ "\x7d")
    ++ " from \"" ++ jsEscape m ++ "\";"

/-- Follows the spec's words: the import block is the per-module statements,
one per line. -/
def importsSpec (ms : List (ItemStr × Module)) : String :=
  joinSep "\n" (ms.map (fun p => importStatementSpec p.1 p.2))

/-- Descriptors whose identifier parts are non-empty (the import name, the
alias if any, and the default-import name; the module path is
unconstrained). -/
def JsItem.wellNamed : JsItem → Prop
  | JsItem.Import _ name al => name ≠ "" ∧ ∀ a, al = some a → a ≠ ""
  | JsItem.ImportDefault _ name => name ≠ ""
  | JsItem.Local _ => True

/-- Non-empty identifier parts of a collated named entry. -/
def elemNonempty : ImportedElement → Prop
  | ImportedElement.Plain name => name ≠ ""
  | ImportedElement.Aliased name al => name ≠ "" ∧ al ≠ ""

/-- The item sequence (in stream order) that `emitElement` appends. -/
def elementItems : ImportedElement → List (Item JsItem)
  | ImportedElement.Plain name => [Item.literal name]
  | ImportedElement.Aliased name al =>
      [Item.literal name, Item.space, Item.literal "as", Item.space, Item.literal al]

/-- The item sequence (in stream order) that `emitElements` appends. -/
def elementsItems : List ImportedElement → List (Item JsItem)
  | [] => []
  | [e] => elementItems e
  | e :: rest => elementItems e ++ [Item.literal ",", Item.space] ++ elementsItems rest

/-- The item sequence (in stream order) of the binding part of one import
statement. -/
def bindingItems (M : Module) : List (Item JsItem) :=
  (match M.default_import with
   | some d =>
       Item.literal d ::
         (if M.set.isEmpty then [] else [Item.literal ",", Item.space])
   | none => [])
  ++ (if M.set.isEmpty then []
      else Item.literal "\x7b" :: (elementsItems M.set ++ [Item.literal "\x7d"]))

/-- The item sequence (in stream order) of one whole import statement. -/
def stmtItems (p : ItemStr × Module) : List (Item JsItem) :=
  Item.literal "import" :: Item.space ::
    (bindingItems p.2
      ++ [Item.space, Item.literal "from", Item.space,
          Item.openQuote false, Item.literal p.1, Item.closeQuote, Item.literal ";"])

/-- The item sequence (in stream order) of the whole import block, one
pushed statement per module. -/
def preambleItems : List (ItemStr × Module) → List (Item JsItem)
  | [] => []
  | p :: rest => (Item.push :: stmtItems p) ++ preambleItems rest

/-- Outputs whose most recent item is a literal (or that are empty):
appending a push or a space to such a stream never triggers the coalescing
branches of the checked mutators. -/
def litHeaded {L : Type} (o : Tokens L) : Prop :=
  o.items = [] ∨ ∃ s l, o.items = Item.literal s :: l

/-- Well-formedness of one collated module entry: it records at least
one import, every recorded identifier is non-empty, and the named set is
strictly sorted (hence deduplicated and in lexical order). -/
def ModOk (p : ItemStr × Module) : Prop :=
  (p.2.default_import ≠ none ∨ p.2.set ≠ [])
  ∧ (∀ x, p.2.default_import = some x → x ≠ "")
  ∧ (∀ e ∈ p.2.set, elemNonempty e)
  ∧ List.Pairwise (fun a b => elLt a b = true) p.2.set

theorem chainBy_tail {L : Type} (p : Item L → Item L → Bool) :
    ∀ (x : Item L) (l : List (Item L)), chainBy p (x :: l) = true → chainBy p l = true := by
  intro x l h
  cases l with
  | nil => simp [chainBy]
  | cons y ys =>
      simp only [chainBy, Bool.and_eq_true] at h
      exact h.2

/-- Consing an item on top of a chain-wellformed list, where the item is a
legal successor of the previous head. -/
theorem chainBy_cons {L : Type} (p : Item L → Item L → Bool) (x : Item L) :
    ∀ (l : List (Item L)), chainBy p l = true →
      (∀ y, l.head? = some y → p y x = true) → chainBy p (x :: l) = true := by
  intro l h hp
  cases l with
  | nil => simp [chainBy]
  | cons y ys =>
      show (p y x && chainBy p (y :: ys)) = true
      rw [Bool.and_eq_true]
      exact ⟨hp y rfl, h⟩

/-- The strong chain invariant is preserved by `space`. -/
theorem strongChain_space {L : Type} (t : Tokens L)
    (h : chainBy strongPair t.items = true) : chainBy strongPair t.space.items = true := by
  obtain ⟨items⟩ := t
  cases items with
  | nil => simp [Tokens.space, chainBy]
  | cons y ys =>
      cases y <;>
        simp_all [Tokens.space, chainBy, strongPair, invPair]

/-- The strong chain invariant is preserved by `push`. -/
theorem strongChain_push {L : Type} (t : Tokens L)
    (h : chainBy strongPair t.items = true) : chainBy strongPair t.push.items = true := by
  obtain ⟨items⟩ := t
  cases items with
  | nil => simp [Tokens.push, chainBy]
  | cons y ys =>
      cases y <;>
        simp_all [Tokens.push, chainBy, strongPair, invPair]

/-- The strong chain invariant is preserved by `line`. -/
theorem strongChain_line {L : Type} (t : Tokens L)
    (h : chainBy strongPair t.items = true) : chainBy strongPair t.line.items = true := by
  obtain ⟨items⟩ := t
  cases items with
  | nil => simp [Tokens.line, chainBy]
  | cons y ys =>
      cases y
      case push =>
        -- the popped push was a legal successor of the head of `ys`, hence so
        -- is the line that replaces it
        show chainBy strongPair (Item.line :: ys) = true
        cases ys with
        | nil => simp [chainBy]
        | cons z rest =>
            have h1 : (strongPair z Item.push && chainBy strongPair (z :: rest)) = true := h
            rw [Bool.and_eq_true] at h1
            refine chainBy_cons _ _ _ h1.2 ?_
            intro w hw
            have hzw : z = w := by simpa using hw
            subst hzw
            have h2 := h1.1
            cases z <;> simp_all [strongPair, invPair]
      case line =>
        show chainBy strongPair (Item.line :: ys) = true
        cases ys with
        | nil => simp [chainBy]
        | cons z rest =>
            have h1 : (strongPair z Item.line && chainBy strongPair (z :: rest)) = true := h
            rw [Bool.and_eq_true] at h1
            refine chainBy_cons _ _ _ h1.2 ?_
            intro w hw
            have hzw : z = w := by simpa using hw
            subst hzw
            have h2 := h1.1
            cases z <;> simp_all [strongPair, invPair]
      all_goals
        simp_all [Tokens.line, chainBy, strongPair, invPair]

/-- The strong chain invariant is preserved by `indent`. -/
theorem strongChain_indent {L : Type} (t : Tokens L)
    (h : chainBy strongPair t.items = true) : chainBy strongPair t.indent.items = true := by
  obtain ⟨items⟩ := t
  cases items with
  | nil => simp [Tokens.indent, chainBy]
  | cons y ys =>
      cases y
      case indentation lv =>
        show chainBy strongPair (Tokens.indent ⟨Item.indentation lv :: ys⟩).items = true
        by_cases hz : wrapI16 (lv + 1) = 0
        · simpa [Tokens.indent, hz] using chainBy_tail _ _ _ h
        · simp only [Tokens.indent, hz, if_false]
          refine chainBy_cons _ _ _ (chainBy_tail _ _ _ h) ?_
          intro z hrest
          cases z <;> simp [strongPair, invPair]
      all_goals
        simp_all [Tokens.indent, chainBy, strongPair, invPair]

/-- The strong chain invariant is preserved by `unindent`. -/
theorem strongChain_unindent {L : Type} (t : Tokens L)
    (h : chainBy strongPair t.items = true) : chainBy strongPair t.unindent.items = true := by
  obtain ⟨items⟩ := t
  cases items with
  | nil => simp [Tokens.unindent, chainBy]
  | cons y ys =>
      cases y
      case indentation lv =>
        show chainBy strongPair (Tokens.unindent ⟨Item.indentation lv :: ys⟩).items = true
        by_cases hz : wrapI16 (lv - 1) = 0
        · simpa [Tokens.unindent, hz] using chainBy_tail _ _ _ h
        · simp only [Tokens.unindent, hz, if_false]
          refine chainBy_cons _ _ _ (chainBy_tail _ _ _ h) ?_
          intro z hrest
          cases z <;> simp [strongPair, invPair]
      all_goals
        simp_all [Tokens.unindent, chainBy, strongPair, invPair]

/-- The strong chain invariant is preserved by `item`. -/
theorem strongChain_item {L : Type} (t : Tokens L) (i : Item L)
    (h : chainBy strongPair t.items = true) : chainBy strongPair (t.item i).items = true := by
  cases i
  case push => exact strongChain_push t h
  case line => exact strongChain_line t h
  case space => exact strongChain_space t h
  all_goals
    refine chainBy_cons _ _ _ h ?_
    intro z hz
    cases z <;> simp [strongPair, invPair]

/-- The strong chain invariant is preserved by `extend`. -/
theorem strongChain_extend {L : Type} (l : List (Item L)) :
    ∀ (t : Tokens L), chainBy strongPair t.items = true →
      chainBy strongPair (t.extend l).items = true := by
  induction l with
  | nil => intro t h; simpa [Tokens.extend] using h
  | cons x xs ih =>
      intro t h
      have : Tokens.extend t (x :: xs) = Tokens.extend (t.item x) xs := by
        simp [Tokens.extend]
      rw [this]
      exact ih (t.item x) (strongChain_item t x h)

/-- A pointwise implication between adjacency constraints lifts to the chain
check. -/
theorem chainBy_mono {L : Type} (p q : Item L → Item L → Bool)
    (hpq : ∀ a b, p a b = true → q a b = true) :
    ∀ l : List (Item L), chainBy p l = true → chainBy q l = true := by
  intro l
  induction l with
  | nil => simp [chainBy]
  | cons x xs ih =>
      cases xs with
      | nil => simp [chainBy]
      | cons y ys =>
          intro h
          have h1 : (p y x && chainBy p (y :: ys)) = true := h
          rw [Bool.and_eq_true] at h1
          show (q y x && chainBy q (y :: ys)) = true
          rw [Bool.and_eq_true]
          exact ⟨hpq _ _ h1.1, ih h1.2⟩

/-- Every stream built through the public mutators satisfies the strong chain
invariant. -/
theorem built_strongChain {L : Type} (t : Tokens L) (h : Built t) :
    chainBy strongPair t.items = true := by
  induction h with
  | new => simp [Tokens.new, chainBy]
  | item t i _ ih => exact strongChain_item t i ih
  | literal t s _ ih => exact strongChain_item t _ ih
  | quoted t s _ ih =>
      exact strongChain_item _ _ (strongChain_item _ _ (strongChain_item t _ ih))
  | space t _ ih => exact strongChain_space t ih
  | push t _ ih => exact strongChain_push t ih
  | line t _ ih => exact strongChain_line t ih
  | indent t _ ih => exact strongChain_indent t ih
  | unindent t _ ih => exact strongChain_unindent t ih
  | extend t l _ ih => exact strongChain_extend l t ih
  | register t x _ ih => exact strongChain_item t _ ih

/-- C4: every Tokens value built exclusively through the public mutators
satisfies the structural invariants at all times: no two consecutive Space
items, no two consecutive Push items, no Push immediately followed by a
Line, and no two consecutive Line items. -/
theorem claim_C4_structural_invariants {L : Type} (t : Tokens L) (h : Built t) :
    chainBy invPair t.items = true := by
  refine chainBy_mono strongPair invPair ?_ t.items (built_strongChain t h)
  intro a b hab
  simp only [strongPair, Bool.and_eq_true] at hab
  exact hab.1

/-- Witness for C4 at a concrete mutator-built stream (a push, a literal, a
coalesced double space, then a line absorbing a push). -/
theorem claim_C4_witness :
    chainBy invPair
      ((((((Tokens.new.push).literal "a").space).space).push).line : Tokens Unit).items
      = true :=
  claim_C4_structural_invariants _
    (Built.line _ (Built.push _ (Built.space _ (Built.space _
      (Built.literal _ "a" (Built.push _ Built.new))))))

/-- C10: push() when the last item is a Line is a no-op, so a Line item is
never immediately followed by a Push in a mutator-built stream, and line()
followed by push() is the same stream as line() alone. -/
theorem claim_C10_push_after_line {L : Type} (t : Tokens L) :
    t.line.push = t.line ∧ (Built t → chainBy noLinePush t.items = true) := by
  constructor
  · obtain ⟨items⟩ := t
    cases items with
    | nil => rfl
    | cons y ys => cases y <;> rfl
  · intro h
    refine chainBy_mono strongPair noLinePush ?_ t.items (built_strongChain t h)
    intro a b hab
    cases a <;> cases b <;> simp_all [strongPair, invPair, noLinePush]

/-- Witness for C10 at a concrete mutator-built stream. -/
theorem claim_C10_witness :
    (((Tokens.new.literal "a" : Tokens Unit).line).push = (Tokens.new.literal "a").line)
      ∧ chainBy noLinePush ((Tokens.new.literal "a" : Tokens Unit).line).items = true :=
  ⟨(claim_C10_push_after_line (Tokens.new.literal "a")).1,
   (claim_C10_push_after_line ((Tokens.new.literal "a").line)).2
     (Built.line _ (Built.literal _ "a" Built.new))⟩

/-- Within the `i16` range the wrap-around is the identity. -/
theorem wrapI16_eq_self (x : Int) (h1 : -32768 ≤ x) (h2 : x ≤ 32767) :
    wrapI16 x = x := by
  simp only [wrapI16]
  omega

/-- The net delta of a call sequence is bounded by its length. -/
theorem netDelta_bounds :
    ∀ cs : List Bool, -(cs.length : Int) ≤ netDelta cs ∧ netDelta cs ≤ (cs.length : Int) := by
  intro cs
  induction cs with
  | nil => simp [netDelta]
  | cons c cs ih =>
      obtain ⟨ih1, ih2⟩ := ih
      have hl : (((c :: cs).length : Nat) : Int) = (cs.length : Int) + 1 := by simp
      cases c
      · have hd : netDelta (false :: cs) = -1 + netDelta cs := rfl
        omega
      · have hd : netDelta (true :: cs) = 1 + netDelta cs := rfl
        omega

/-- Every prefix of a short call sequence has its net delta inside the `i16`
range. -/
theorem prefixRange_of_short (cs : List Bool) (h : (cs.length : Int) ≤ 32767) :
    ∀ pre suf, cs = pre ++ suf → -32768 ≤ netDelta pre ∧ netDelta pre ≤ 32767 := by
  intro pre suf heq
  obtain ⟨h1, h2⟩ := netDelta_bounds pre
  have hlen : pre.length ≤ cs.length := by
    rw [heq, List.length_append]
    omega
  have hlen2 : (pre.length : Int) ≤ (cs.length : Int) := by exact_mod_cast hlen
  omega

/-- All-increment sequences have net delta equal to their length. -/
theorem netDelta_replicate_true : ∀ n : Nat, netDelta (List.replicate n true) = (n : Int) := by
  intro n
  induction n with
  | zero => rfl
  | succ n ih =>
      rw [List.replicate_succ]
      show 1 + netDelta (List.replicate n true) = _
      rw [ih]
      push_cast
      omega

/-- Call sequences compose by concatenation. -/
theorem applyIndentCalls_append {L : Type} :
    ∀ (cs1 cs2 : List Bool) (t : Tokens L),
      applyIndentCalls t (cs1 ++ cs2)
        = applyIndentCalls (applyIndentCalls t cs1) cs2 := by
  intro cs1
  induction cs1 with
  | nil => intro cs2 t; rfl
  | cons c cs ih =>
      intro cs2 t
      show applyIndentCalls (if c then t.indent else t.unindent) (cs ++ cs2) = _
      exact ih cs2 _

/-- One `indent()` call on a stream that is either `t` (no trailing
indentation item) or `t` with a trailing indentation item of delta `k`: the
new delta is the `i16`-wrapped `k + 1`. -/
theorem indent_state {L : Type} (t : Tokens L)
    (ht : ∀ n, t.items.head? ≠ some (Item.indentation n)) (k : Int) :
    Tokens.indent (if k = 0 then t else ⟨Item.indentation k :: t.items⟩)
      = if wrapI16 (k + 1) = 0 then t
        else ⟨Item.indentation (wrapI16 (k + 1)) :: t.items⟩ := by
  have hplain : t.indent = ⟨Item.indentation 1 :: t.items⟩ := by
    obtain ⟨items⟩ := t
    cases items with
    | nil => rfl
    | cons y ys =>
        cases y
        case indentation n => exact absurd rfl (ht n)
        all_goals rfl
  by_cases hk : k = 0
  · subst hk
    rw [if_pos rfl, hplain, if_neg (by decide),
      show wrapI16 (0 + 1) = 1 from by decide]
  · rw [if_neg hk]
    by_cases hk1 : wrapI16 (k + 1) = 0
    · rw [if_pos hk1]
      simp only [Tokens.indent, hk1]
      simp
    · rw [if_neg hk1]
      simp only [Tokens.indent, hk1]
      simp

/-- One `unindent()` call, same state shape as `indent_state`: the new delta
is the `i16`-wrapped `k - 1`. -/
theorem unindent_state {L : Type} (t : Tokens L)
    (ht : ∀ n, t.items.head? ≠ some (Item.indentation n)) (k : Int) :
    Tokens.unindent (if k = 0 then t else ⟨Item.indentation k :: t.items⟩)
      = if wrapI16 (k - 1) = 0 then t
        else ⟨Item.indentation (wrapI16 (k - 1)) :: t.items⟩ := by
  have hplain : t.unindent = ⟨Item.indentation (-1) :: t.items⟩ := by
    obtain ⟨items⟩ := t
    cases items with
    | nil => rfl
    | cons y ys =>
        cases y
        case indentation n => exact absurd rfl (ht n)
        all_goals rfl
  by_cases hk : k = 0
  · subst hk
    rw [if_pos rfl, hplain, if_neg (by decide),
      show wrapI16 (0 - 1) = -1 from by decide]
  · rw [if_neg hk]
    by_cases hk1 : wrapI16 (k - 1) = 0
    · rw [if_pos hk1]
      simp only [Tokens.unindent, hk1]
      simp
    · rw [if_neg hk1]
      simp only [Tokens.unindent, hk1]
      simp

/-- Running a call sequence from the canonical state: as long as the running
delta stays inside the `i16` range (so the wrapped arithmetic is exact), the
trailing delta is the starting delta plus the net effect of the calls. -/
theorem applyIndent_aux {L : Type} (cs : List Bool) :
    ∀ (t : Tokens L), (∀ n, t.items.head? ≠ some (Item.indentation n)) →
      ∀ k : Int,
        (∀ pre suf, cs = pre ++ suf →
          -32768 ≤ k + netDelta pre ∧ k + netDelta pre ≤ 32767) →
        applyIndentCalls (if k = 0 then t else ⟨Item.indentation k :: t.items⟩) cs
          = if k + netDelta cs = 0 then t
            else ⟨Item.indentation (k + netDelta cs) :: t.items⟩ := by
  induction cs with
  | nil => intro t ht k hr; simp [applyIndentCalls, netDelta]
  | cons c cs ih =>
      intro t ht k hr
      cases c
      · have hk1 : -32768 ≤ k - 1 ∧ k - 1 ≤ 32767 := by
          have h := hr [false] cs rfl
          have hnd : netDelta [false] = -1 := rfl
          omega
        have hw : wrapI16 (k - 1) = k - 1 := wrapI16_eq_self _ hk1.1 hk1.2
        have hr' : ∀ pre suf, cs = pre ++ suf →
            -32768 ≤ (k - 1) + netDelta pre ∧ (k - 1) + netDelta pre ≤ 32767 := by
          intro pre suf heq
          have h := hr (false :: pre) suf (by rw [heq, List.cons_append])
          have hnd : netDelta (false :: pre) = -1 + netDelta pre := rfl
          omega
        have hstep :
            applyIndentCalls (if k = 0 then t else ⟨Item.indentation k :: t.items⟩)
                (false :: cs)
              = applyIndentCalls
                  (Tokens.unindent (if k = 0 then t else ⟨Item.indentation k :: t.items⟩))
                  cs := rfl
        rw [hstep, unindent_state t ht k, hw, ih t ht (k - 1) hr']
        have harith : k - 1 + netDelta cs = k + netDelta (false :: cs) := by
          rw [show netDelta (false :: cs) = -1 + netDelta cs from rfl]
          omega
        rw [harith]
      · have hk1 : -32768 ≤ k + 1 ∧ k + 1 ≤ 32767 := by
          have h := hr [true] cs rfl
          have hnd : netDelta [true] = 1 := rfl
          omega
        have hw : wrapI16 (k + 1) = k + 1 := wrapI16_eq_self _ hk1.1 hk1.2
        have hr' : ∀ pre suf, cs = pre ++ suf →
            -32768 ≤ (k + 1) + netDelta pre ∧ (k + 1) + netDelta pre ≤ 32767 := by
          intro pre suf heq
          have h := hr (true :: pre) suf (by rw [heq, List.cons_append])
          have hnd : netDelta (true :: pre) = 1 + netDelta pre := rfl
          omega
        have hstep :
            applyIndentCalls (if k = 0 then t else ⟨Item.indentation k :: t.items⟩)
                (true :: cs)
              = applyIndentCalls
                  (Tokens.indent (if k = 0 then t else ⟨Item.indentation k :: t.items⟩))
                  cs := rfl
        rw [hstep, indent_state t ht k, hw, ih t ht (k + 1) hr']
        have harith : k + 1 + netDelta cs = k + netDelta (true :: cs) := by
          rw [show netDelta (true :: cs) = 1 + netDelta cs from rfl]
          omega
        rw [harith]

/-- C5 (corrected): indentation composes algebraically at insertion time for
every call sequence whose running net delta stays inside the `i16` range of
the stored `NonZeroI16` — such a sequence of indent()/unindent() calls on a
stream with no trailing indentation item leaves exactly one trailing
Indentation item carrying the (possibly negative, never clamped) net delta,
or none when the net is zero; the sink changes the stored level without
clamping, and the effective printed indentation is clamped to zero only at
render time.  Past the `i16` range the source's two's-complement wrap breaks
the net-sum law, so the range proviso is necessary. -/
theorem claim_C5_indentation_algebra {L : Type} (t : Tokens L) (cs : List Bool)
    (ht : ∀ n, t.items.head? ≠ some (Item.indentation n))
    (hrange : ∀ pre suf, cs = pre ++ suf →
      -32768 ≤ netDelta pre ∧ netDelta pre ≤ 32767) :
    (applyIndentCalls t cs
        = if netDelta cs = 0 then t else ⟨Item.indentation (netDelta cs) :: t.items⟩)
    ∧ (∀ (f : Formatter) (n : Int), (f.indentation n).indentLevel = f.indentLevel + n)
    ∧ (∀ lvl : Int, lvl ≤ 0 → indentString lvl = "") := by
  refine ⟨?_, ?_, ?_⟩
  · have h := applyIndent_aux cs t ht 0 (by
      intro pre suf heq
      have h2 := hrange pre suf heq
      omega)
    simpa using h
  · intro f n; rfl
  · intro lvl hlvl
    have : lvl.toNat = 0 := Int.toNat_of_nonpos hlvl
    simp [indentString, this]

/-- Counterexample to C5 as stated (for every call sequence): 32768
consecutive indent() calls on a fresh stream leave a trailing delta of
-32768 — the source's `level.get() + 1` wraps at the `i16` range — while the
net sum of the calls is 32768. -/
theorem claim_C5_counterexample :
    (applyIndentCalls (Tokens.new : Tokens Unit) (List.replicate 32768 true)).items
        = [Item.indentation (-32768)]
    ∧ netDelta (List.replicate 32768 true) = 32768 := by
  constructor
  · have h1 := applyIndent_aux (List.replicate 32767 true) (Tokens.new : Tokens Unit)
      (by intro n; simp [Tokens.new]) 0
      (by
        intro pre suf heq
        have h := prefixRange_of_short (List.replicate 32767 true)
          (by rw [List.length_replicate]; norm_num) pre suf heq
        omega)
    rw [if_pos rfl, netDelta_replicate_true 32767] at h1
    rw [if_neg (by decide)] at h1
    have h1' : applyIndentCalls (Tokens.new : Tokens Unit) (List.replicate 32767 true)
        = (⟨[Item.indentation 32767]⟩ : Tokens Unit) := h1
    rw [show (32768 : Nat) = 32767 + 1 from rfl, List.replicate_add,
      applyIndentCalls_append, h1']
    decide
  · exact netDelta_replicate_true 32768

/-- Witness for C5: three calls (unindent, unindent, indent) on a stream
ending in a literal leave a single trailing Indentation item of delta -1. -/
theorem claim_C5_witness :
    applyIndentCalls (Tokens.new.literal "x" : Tokens Unit) [false, false, true]
      = ⟨[Item.indentation (-1), Item.literal "x"]⟩ := by
  have h :=
    (claim_C5_indentation_algebra (Tokens.new.literal "x" : Tokens Unit) [false, false, true]
      (by intro n; simp [Tokens.literal, Tokens.item, Tokens.new])
      (prefixRange_of_short [false, false, true] (by decide))).1
  simpa [netDelta, Tokens.literal, Tokens.item, Tokens.new] using h

/-- `walkAll` is exactly the exhaustion of the `walkNext` iterator: one
`next()` call produces the head of the sequence and the queue from which the
rest is produced. -/
theorem walkAll_walkNext {L I : Type} (proj : L → Option I) :
    ∀ items : List (Item L),
      walkAll proj items
        = (match walkNext proj items with
           | none => []
           | some (imp, rest) => imp :: walkAll proj rest) := by
  intro items
  induction items with
  | nil => rfl
  | cons i rest ih =>
      cases hp : projectItem proj i with
      | some imp => simp [walkAll, walkNext, hp]
      | none => simp [walkAll, walkNext, hp, ih]

/-- The walked import sequence is exactly the projection-filtered item
sequence. -/
theorem walkAll_eq_filterMap {L I : Type} (proj : L → Option I) :
    ∀ items : List (Item L), walkAll proj items = items.filterMap (projectItem proj) := by
  intro items
  induction items with
  | nil => rfl
  | cons i rest ih =>
      cases hp : projectItem proj i with
      | some imp => simp [walkAll, List.filterMap_cons, hp, ih]
      | none => simp [walkAll, List.filterMap_cons, hp, ih]

/-- C6: walk_imports() yields exactly the import identities of the LangBox
and Registered items of the stream, in stream order, skipping items
whose import projection is None and every non-language item; each call
traverses
the items from the beginning (the result is a function of the stream
alone). -/
theorem claim_C6_walk_imports {L I : Type} (proj : L → Option I) (t : Tokens L) :
    Tokens.walk_imports proj t = t.stream.filterMap (projectItem proj) :=
  walkAll_eq_filterMap proj t.stream

/-- C9: a fresh Tokens value is empty, and rendering it as a file
collects no imports and emits no preamble and no leading blank line — the
output is byte-for-byte empty. -/
theorem claim_C9_empty_file :
    Tokens.is_empty (Tokens.new : Tokens JsItem) = true ∧
    JavaScript.write_file Tokens.new Formatter.init = Except.ok Formatter.init := by
  constructor
  · rfl
  · rfl

/-- C3 (the failing input evaluated): two differently-named default imports
of one module are silently collated by keeping the one seen last — no error
is reported (the collation has no error channel at all), and reversing the
discovery order flips which name wins.  The full file render likewise
succeeds silently with the last-seen name. -/
theorem claim_C3_default_conflict_overwrites :
    collectModules
        [JsItem.ImportDefault "mod" "first", JsItem.ImportDefault "mod" "second"]
      = [("mod", ⟨some "second", []⟩)]
    ∧ collectModules
        [JsItem.ImportDefault "mod" "second", JsItem.ImportDefault "mod" "first"]
      = [("mod", ⟨some "first", []⟩)]
    ∧ (JavaScript.write_file
        ⟨[Item.langBox (JsItem.ImportDefault "mod" "second"),
          Item.langBox (JsItem.ImportDefault "mod" "first")]⟩ Formatter.init).isOk
      = true := by
  refine ⟨by decide, by decide, by decide⟩

/-- Unfolding of the render loop at an `OpenEval`: inside a quote the cursor
peeks for a literal directly followed by `CloseEval`; outside a quote the
step is a fatal fault. -/
theorem formatLoop_openEval {L : Type} (H : LangHooks L) (rest : List (Item L))
    (f : Frame) (fs : List Frame) (out : Formatter) :
    formatLoop H (Item.openEval :: rest) (f :: fs) out
      = if f.in_quote then
          (match rest with
           | Item.literal lit :: Item.closeEval :: rest2 =>
               formatLoop H rest2 (f :: fs) (out.writeStr (H.evalLiteral lit))
           | _ =>
               formatLoop H rest ((⟨false, false, true⟩ : Frame) :: f :: fs)
                 (out.writeStr H.startEval))
        else Except.error () := by
  cases rest with
  | nil => rfl
  | cons x xs =>
      cases xs with
      | nil => cases x <;> rfl
      | cons y ys => cases x <;> cases y <;> rfl

/-- A violating head item makes the loop return the fatal error immediately,
whatever the remaining items are (no recovery, no further consumption). -/
theorem formatLoop_violation {L : Type} (H : LangHooks L) (i : Item L)
    (rest : List (Item L)) (f : Frame) (fs : List Frame) (out : Formatter)
    (hv : stepViolation i f = true) :
    formatLoop H (i :: rest) (f :: fs) out = Except.error () := by
  cases i
  case openQuote e =>
      have hq : f.in_quote = true := by simpa [stepViolation] using hv
      simp [formatLoop, hq]
  case closeQuote =>
      have hq : f.in_quote = false := by simpa [stepViolation] using hv
      simp [formatLoop, hq]
  case openEval =>
      have hq : f.in_quote = false := by simpa [stepViolation] using hv
      rw [formatLoop_openEval]
      simp [hq]
  case closeEval =>
      have hq : f.end_on_eval = false := by simpa [stepViolation] using hv
      simp [formatLoop, hq]
  all_goals simp [stepViolation] at hv

/-- A non-violating step of the loop advances to the `next*` configuration. -/
theorem formatLoop_step {L : Type} (H : LangHooks L) (i : Item L)
    (rest : List (Item L)) (f : Frame) (fs : List Frame) (out : Formatter)
    (hv : stepViolation i f = false) :
    formatLoop H (i :: rest) (f :: fs) out
      = formatLoop H (nextItems i rest) (nextStack i rest f fs) (nextOut H i rest f out) := by
  cases i
  case literal lit =>
      by_cases hq : f.in_quote <;> simp [formatLoop, nextItems, nextStack, nextOut, hq]
  case openQuote e =>
      have hq : f.in_quote = false := by simpa [stepViolation] using hv
      simp [formatLoop, nextItems, nextStack, nextOut, hq]
  case closeQuote =>
      have hq : f.in_quote = true := by simpa [stepViolation] using hv
      simp [formatLoop, nextItems, nextStack, nextOut, hq]
  case openEval =>
      have hq : f.in_quote = true := by simpa [stepViolation] using hv
      rw [formatLoop_openEval]
      cases rest with
      | nil => simp [hq, nextItems, nextStack, nextOut]
      | cons x xs =>
          cases xs with
          | nil => cases x <;> simp [hq, nextItems, nextStack, nextOut]
          | cons y ys => cases x <;> cases y <;> simp [hq, nextItems, nextStack, nextOut]
  case closeEval =>
      have hq : f.end_on_eval = true := by simpa [stepViolation] using hv
      simp [formatLoop, nextItems, nextStack, nextOut, hq]
  all_goals simp [formatLoop, nextItems, nextStack, nextOut]

theorem nextItems_length_le {L : Type} (i : Item L) (rest : List (Item L)) :
    (nextItems i rest).length ≤ rest.length := by
  cases i
  case openEval =>
      cases rest with
      | nil => simp [nextItems]
      | cons x xs =>
          cases xs with
          | nil => cases x <;> simp [nextItems]
          | cons y ys => cases x <;> cases y <;> simp_arith [nextItems]
  all_goals simp [nextItems]

/-- The loop returns the fatal error exactly when the run encounters a
quote/eval state violation. -/
theorem formatLoop_error_iff {L : Type} (H : LangHooks L) :
    ∀ (n : Nat) (items : List (Item L)), items.length ≤ n → ∀ stack out,
      (formatLoop H items stack out = Except.error ()) ↔ FormatFault items stack := by
  intro n
  induction n with
  | zero =>
      intro items hlen stack out
      have : items = [] := List.eq_nil_of_length_eq_zero (Nat.le_zero.mp hlen)
      subst this
      constructor
      · intro h; simp [formatLoop] at h
      · intro h; cases h
  | succ n ih =>
      intro items hlen stack out
      cases items with
      | nil =>
          constructor
          · intro h; simp [formatLoop] at h
          · intro h; cases h
      | cons i rest =>
          cases stack with
          | nil =>
              constructor
              · intro h; simp [formatLoop] at h
              · intro h; cases h
          | cons f fs =>
              by_cases hv : stepViolation i f = true
              · constructor
                · intro _; exact FormatFault.hit i rest f fs hv
                · intro _; exact formatLoop_violation H i rest f fs out hv
              · have hv' : stepViolation i f = false := by
                  simpa using hv
                rw [formatLoop_step H i rest f fs out hv']
                have hlen' : (nextItems i rest).length ≤ n := by
                  have h1 := nextItems_length_le i rest
                  have h2 : rest.length + 1 ≤ n + 1 := by simpa using hlen
                  omega
                rw [ih (nextItems i rest) hlen' (nextStack i rest f fs)
                      (nextOut H i rest f out)]
                constructor
                · intro h; exact FormatFault.step i rest f fs hv' h
                · intro h
                  cases h with
                  | hit _ _ _ _ h2 => rw [hv'] at h2; cases h2
                  | step _ _ _ _ _ h3 => exact h3

/-- C2: the render pass returns a fatal error exactly when it encounters a
quote/eval state violation (CloseQuote while not in quote, OpenQuote while
already in quote, OpenEval while not in quote, CloseEval when the current
frame is not tagged end_on_eval); a violating head item aborts immediately
for every possible remainder of the stream — no recovery, no further
consumption. -/
theorem claim_C2_format_fatal_iff {L : Type} (H : LangHooks L) (t : Tokens L)
    (out : Formatter) :
    (Tokens.format H t out = Except.error () ↔ FormatFault t.stream [Frame.base])
    ∧ ∀ (i : Item L) (rest : List (Item L)) (f : Frame) (fs : List Frame) (o : Formatter),
        stepViolation i f = true → formatLoop H (i :: rest) (f :: fs) o = Except.error () := by
  constructor
  · unfold Tokens.format
    constructor
    · intro h
      have herr : formatLoop H t.stream [Frame.base] out = Except.error () := by
        cases hres : formatLoop H t.stream [Frame.base] out with
        | ok v => rw [hres] at h; simp [Except.map] at h
        | error e => cases e; rfl
      exact (formatLoop_error_iff H t.stream.length t.stream le_rfl _ _).mp herr
    · intro h
      have herr := (formatLoop_error_iff H t.stream.length t.stream le_rfl
        [Frame.base] out).mpr h
      rw [herr]
      rfl
  · intro i rest f fs o hv
    exact formatLoop_violation H i rest f fs o hv

/-- Witness for C2: a lone CloseQuote at the start of a stream is a fatal
fault, both through the loop-level statement and through `Tokens::format`. -/
theorem claim_C2_witness :
    formatLoop jsHooks [Item.closeQuote] [Frame.base] Formatter.init = Except.error ()
    ∧ Tokens.format jsHooks (⟨[Item.closeQuote]⟩ : Tokens JsItem) Formatter.init
        = Except.error () :=
  ⟨(claim_C2_format_fatal_iff jsHooks (⟨[]⟩ : Tokens JsItem) Formatter.init).2
      Item.closeQuote [] Frame.base [] Formatter.init (by decide),
   (claim_C2_format_fatal_iff jsHooks (⟨[Item.closeQuote]⟩ : Tokens JsItem) Formatter.init).1.mpr
      (FormatFault.hit Item.closeQuote [] Frame.base [] (by decide))⟩

theorem str_append_ne_empty_left {a b : String} (ha : a ≠ "") : a ++ b ≠ "" := by
  intro h
  apply ha
  have hd := congrArg String.data h
  rw [String.data_append] at hd
  have hnil : a.data = [] := (List.append_eq_nil.mp hd).1
  cases a
  simp_all

/-- Two consecutive writes are one write of the concatenation (an empty
write does nothing, and a non-empty write leaves nothing pending). -/
theorem writeStr_writeStr (out : Formatter) (a b : String) :
    (out.writeStr a).writeStr b = out.writeStr (a ++ b) := by
  by_cases ha : a = ""
  · subst ha
    simp [Formatter.writeStr]
  · by_cases hb : b = ""
    · subst hb
      simp [Formatter.writeStr, ha]
    · have hab : a ++ b ≠ "" := str_append_ne_empty_left ha
      simp only [Formatter.writeStr, ha, hb, hab, if_neg, if_false]
      simp [Formatter.flushText, String.append_assoc]

/-- A pending space materialises as one space in front of the next non-empty
write. -/
theorem space_writeStr (out : Formatter) (hsp : out.pendingSpace = false) (b : String)
    (hb : b ≠ "") :
    (out.space).writeStr b = out.writeStr (" " ++ b) := by
  have hsb : " " ++ b ≠ "" := str_append_ne_empty_left (by decide)
  simp only [Formatter.space, Formatter.writeStr, hb, hsb, if_neg, if_false]
  simp [Formatter.flushText, hsp, String.append_assoc]

/-- The no-peek loop ignores `Registered` items entirely. -/
theorem formatPlain_skip_registered {L : Type} (H : LangHooks L) :
    ∀ (items : List (Item L)) (stack : List Frame) (out : Formatter),
      formatPlain H (eraseRegistered items) stack out = formatPlain H items stack out := by
  intro items
  induction items with
  | nil => intro stack out; rfl
  | cons i rest ih =>
      intro stack out
      cases stack with
      | nil =>
          have h1 : formatPlain H (i :: rest) [] out = Except.ok ([], out) := by
            cases i <;> rfl
          have h2 : formatPlain H (eraseRegistered (i :: rest)) [] out
              = Except.ok ([], out) := by
            cases he : eraseRegistered (i :: rest) with
            | nil => rfl
            | cons x xs => cases x <;> rfl
          rw [h1, h2]
      | cons f fs =>
          cases i
          case registered l => exact ih (f :: fs) out
          all_goals (
            simp only [eraseRegistered, formatPlain]
            first
              | (split <;> first | rfl | rw [ih])
              | rw [ih])

/-- When the direct literal-interpolation hook writes exactly the
interpolation markers around the raw literal, the peeking loop and the
no-peek loop produce identical results. -/
theorem formatLoop_eq_formatPlain {L : Type} (H : LangHooks L)
    (hEval : ∀ s, H.evalLiteral s = H.startEval ++ s ++ H.endEval) :
    ∀ (n : Nat) (items : List (Item L)), items.length ≤ n → ∀ stack out,
      formatLoop H items stack out = formatPlain H items stack out := by
  intro n
  induction n with
  | zero =>
      intro items hlen stack out
      have : items = [] := List.eq_nil_of_length_eq_zero (Nat.le_zero.mp hlen)
      subst this
      rfl
  | succ n ih =>
      intro items hlen stack out
      cases items with
      | nil => rfl
      | cons i rest =>
          cases stack with
          | nil =>
              cases i <;>
                first
                  | rfl
                  | (cases rest with
                     | nil => rfl
                     | cons x xs =>
                         cases xs with
                         | nil => cases x <;> rfl
                         | cons y ys => cases x <;> cases y <;> rfl)
          | cons f fs =>
              have hrest : rest.length ≤ n := by
                have : rest.length + 1 ≤ n + 1 := by simpa using hlen
                omega
              cases i
              case openEval =>
                  rw [formatLoop_openEval]
                  by_cases hq : f.in_quote
                  · rw [if_pos hq]
                    cases rest with
                    | nil => simp [formatPlain, hq, ih _ hrest]
                    | cons x xs =>
                        cases xs with
                        | nil => cases x <;> simp [formatPlain, hq, ih _ hrest]
                        | cons y ys =>
                            cases x <;> cases y <;>
                              first
                                | (simp [formatPlain, hq, ih _ hrest]; done)
                                | (have hys : ys.length ≤ n := by
                                     simp at hlen
                                     omega
                                   simp only [formatPlain, hq]
                                   rw [ih ys hys]
                                   simp [writeStr_writeStr, hEval, String.append_assoc])
                  · rw [if_neg hq]
                    simp [formatPlain, hq]
              all_goals (
                simp only [formatLoop, formatPlain]
                first
                  | (split <;> first | rfl | rw [ih _ hrest])
                  | rw [ih _ hrest])

theorem eraseRegistered_append {L : Type} :
    ∀ l1 l2 : List (Item L),
      eraseRegistered (l1 ++ l2) = eraseRegistered l1 ++ eraseRegistered l2 := by
  intro l1 l2
  induction l1 with
  | nil => rfl
  | cons x xs ih => cases x <;> simp [eraseRegistered, ih]

theorem eraseRegistered_reverse {L : Type} :
    ∀ l : List (Item L), eraseRegistered l.reverse = (eraseRegistered l).reverse := by
  intro l
  induction l with
  | nil => rfl
  | cons x xs ih =>
      cases x <;> simp [eraseRegistered, eraseRegistered_append, ih]

/-- C8: a Registered item never contributes any text to the render pass —
removing every Registered item from a stream leaves the output of `format`
unchanged (for any hooks whose direct literal interpolation equals
marker-wrapped text, as in the JavaScript hooks) — while walk_imports still
visits Registered items and yields their import projection. -/
theorem claim_C8_registered_invisible {L I : Type} (H : LangHooks L)
    (hEval : ∀ s, H.evalLiteral s = H.startEval ++ s ++ H.endEval)
    (proj : L → Option I) (t : Tokens L) (out : Formatter) :
    Tokens.format H (stripRegistered t) out = Tokens.format H t out
    ∧ ∀ (l : L) (rest : List (Item L)),
        walkAll proj (Item.registered l :: rest)
          = (proj l).toList ++ walkAll proj rest := by
  constructor
  · unfold Tokens.format
    have hs : (stripRegistered t).stream = eraseRegistered t.stream := by
      unfold stripRegistered Tokens.stream
      exact (eraseRegistered_reverse t.items).symm
    rw [hs]
    rw [formatLoop_eq_formatPlain H hEval (eraseRegistered t.stream).length _ le_rfl,
        formatLoop_eq_formatPlain H hEval t.stream.length _ le_rfl,
        formatPlain_skip_registered]
  · intro l rest
    cases hp : proj l <;> simp [walkAll, projectItem, hp]

/-- Witness for C8: erasing a Registered item leaves the rendered text
unchanged, and the walk still yields the registered import. -/
theorem claim_C8_witness :
    Tokens.format jsHooks
        (stripRegistered ⟨[Item.literal "a", Item.registered (JsItem.Local "x")]⟩)
        Formatter.init
      = Tokens.format jsHooks
          (⟨[Item.literal "a", Item.registered (JsItem.Local "x")]⟩ : Tokens JsItem)
          Formatter.init
    ∧ walkAll JsItem.as_import (Item.registered (JsItem.Import "m" "n" none) :: [])
        = (JsItem.as_import (JsItem.Import "m" "n" none)).toList
            ++ walkAll JsItem.as_import [] :=
  ⟨(claim_C8_registered_invisible jsHooks (fun s => rfl) JsItem.as_import
      ⟨[Item.literal "a", Item.registered (JsItem.Local "x")]⟩ Formatter.init).1,
   (claim_C8_registered_invisible jsHooks (fun s => rfl) JsItem.as_import
      (⟨[]⟩ : Tokens JsItem) Formatter.init).2 (JsItem.Import "m" "n" none) []⟩

theorem charsLt_asymm : ∀ l1 l2, charsLt l1 l2 = true → charsLt l2 l1 = false := by
  intro l1
  induction l1 with
  | nil => intro l2 h; cases l2 <;> simp_all [charsLt]
  | cons a as ih =>
      intro l2 h
      cases l2 with
      | nil => simp_all [charsLt]
      | cons b bs =>
          simp only [charsLt] at h ⊢
          by_cases h1 : a.toNat < b.toNat
          · simp [h1, Nat.lt_asymm h1]
          · by_cases h2 : b.toNat < a.toNat
            · simp [h1, h2] at h
            · simp only [h1, h2, if_false] at h ⊢
              simp [ih bs h]

theorem charsLt_connex : ∀ l1 l2, charsLt l1 l2 = false → charsLt l2 l1 = false → l1 = l2 := by
  intro l1
  induction l1 with
  | nil => intro l2 h1 h2; cases l2 <;> simp_all [charsLt]
  | cons a as ih =>
      intro l2 h1 h2
      cases l2 with
      | nil => simp_all [charsLt]
      | cons b bs =>
          simp only [charsLt] at h1 h2
          by_cases hab : a.toNat < b.toNat
          · simp [hab] at h1
          · by_cases hba : b.toNat < a.toNat
            · simp [hba, hab] at h2
            · simp only [hab, hba, if_false] at h1 h2
              have heq : a = b := by
                apply Char.ext
                apply UInt32.ext
                have e1 : a.toNat = a.val.toNat := rfl
                have e2 : b.toNat = b.val.toNat := rfl
                omega
              rw [heq, ih bs h1 h2]

theorem charsLt_irrefl : ∀ l, charsLt l l = false := by
  intro l
  cases h : charsLt l l
  · rfl
  · have := charsLt_asymm l l h
    rw [this] at h
    cases h

theorem charsLt_trans :
    ∀ l1 l2 l3, charsLt l1 l2 = true → charsLt l2 l3 = true → charsLt l1 l3 = true := by
  intro l1
  induction l1 with
  | nil =>
      intro l2 l3 h1 h2
      cases l2 with
      | nil => simp [charsLt] at h1
      | cons b bs =>
          cases l3 with
          | nil => simp [charsLt] at h2
          | cons c cs => simp [charsLt]
  | cons a as ih =>
      intro l2 l3 h1 h2
      cases l2 with
      | nil => simp [charsLt] at h1
      | cons b bs =>
          cases l3 with
          | nil => simp [charsLt] at h2
          | cons c cs =>
              simp only [charsLt] at h1 h2 ⊢
              by_cases hab : a.toNat < b.toNat
              · by_cases hbc : b.toNat < c.toNat
                · have hac : a.toNat < c.toNat := by omega
                  simp [hac]
                · by_cases hcb : c.toNat < b.toNat
                  · simp [hbc, hcb] at h2
                  · have hac : a.toNat < c.toNat := by omega
                    simp [hac]
              · by_cases hba : b.toNat < a.toNat
                · simp [hab, hba] at h1
                · simp only [hab, hba, if_false] at h1
                  by_cases hbc : b.toNat < c.toNat
                  · have hac : a.toNat < c.toNat := by omega
                    simp [hac]
                  · by_cases hcb : c.toNat < b.toNat
                    · simp [hbc, hcb] at h2
                    · simp only [hbc, hcb, if_false] at h2
                      have h3 : ¬ a.toNat < c.toNat := by omega
                      have h4 : ¬ c.toNat < a.toNat := by omega
                      simp [h3, h4, ih bs cs h1 h2]

theorem strLt_asymm (a b : ItemStr) (h : strLt a b = true) : strLt b a = false :=
  charsLt_asymm a.data b.data h

theorem strLt_connex (a b : ItemStr) (h1 : strLt a b = false) (h2 : strLt b a = false) :
    a = b := by
  have hd : a.data = b.data := charsLt_connex a.data b.data h1 h2
  cases a; cases b; simp_all

theorem strLt_irrefl (a : ItemStr) : strLt a a = false :=
  charsLt_irrefl a.data

theorem strLt_trans (a b c : ItemStr) (h1 : strLt a b = true) (h2 : strLt b c = true) :
    strLt a c = true :=
  charsLt_trans a.data b.data c.data h1 h2

theorem strLt_total (a b : ItemStr) (hne : a ≠ b) (h : strLt a b = false) :
    strLt b a = true := by
  cases hba : strLt b a
  · exact absurd (strLt_connex a b h hba) hne
  · rfl

theorem elLt_asymm : ∀ a b, elLt a b = true → elLt b a = false := by
  intro a b h
  cases a with
  | Plain n1 =>
      cases b with
      | Plain n2 =>
          simp only [elLt] at h ⊢
          exact strLt_asymm _ _ h
      | Aliased n2 a2 => simp [elLt]
  | Aliased n1 a1 =>
      cases b with
      | Plain n2 => simp [elLt] at h
      | Aliased n2 a2 =>
          simp only [elLt] at h ⊢
          by_cases h1 : strLt n1 n2 = true
          · rw [if_neg (by simp [strLt_asymm _ _ h1]), if_pos h1]
          · by_cases h2 : strLt n2 n1 = true
            · rw [if_neg h1, if_pos h2] at h
              cases h
            · rw [if_neg h1, if_neg h2] at h
              rw [if_neg h2, if_neg h1]
              exact strLt_asymm _ _ h

theorem elLt_connex : ∀ a b, elLt a b = false → elLt b a = false → a = b := by
  intro a b h1 h2
  cases a with
  | Plain n1 =>
      cases b with
      | Plain n2 =>
          simp only [elLt] at h1 h2
          rw [strLt_connex _ _ h1 h2]
      | Aliased n2 a2 => simp [elLt] at h1
  | Aliased n1 a1 =>
      cases b with
      | Plain n2 => simp [elLt] at h2
      | Aliased n2 a2 =>
          simp only [elLt] at h1 h2
          by_cases hn1 : strLt n1 n2 = true
          · rw [if_pos hn1] at h1
            cases h1
          · by_cases hn2 : strLt n2 n1 = true
            · rw [if_pos hn2] at h2
              cases h2
            · rw [if_neg hn1, if_neg hn2] at h1
              rw [if_neg hn2, if_neg hn1] at h2
              have hn : n1 = n2 := strLt_connex n1 n2 (by simpa using hn1) (by simpa using hn2)
              have ha : a1 = a2 := strLt_connex a1 a2 h1 h2
              rw [hn, ha]

theorem elLt_trans : ∀ a b c, elLt a b = true → elLt b c = true → elLt a c = true := by
  intro a b c h1 h2
  cases a with
  | Plain n1 =>
      cases c with
      | Aliased n3 a3 => simp [elLt]
      | Plain n3 =>
          cases b with
          | Aliased n2 a2 => simp [elLt] at h2
          | Plain n2 =>
              simp only [elLt] at h1 h2 ⊢
              exact strLt_trans _ _ _ h1 h2
  | Aliased n1 a1 =>
      cases b with
      | Plain n2 => simp [elLt] at h1
      | Aliased n2 a2 =>
          cases c with
          | Plain n3 => simp [elLt] at h2
          | Aliased n3 a3 =>
              simp only [elLt] at h1 h2 ⊢
              by_cases e1 : strLt n1 n2 = true
              · by_cases e2 : strLt n2 n3 = true
                · rw [if_pos (strLt_trans _ _ _ e1 e2)]
                · by_cases e3 : strLt n3 n2 = true
                  · rw [if_neg e2, if_pos e3] at h2
                    cases h2
                  · have : n2 = n3 := strLt_connex _ _ (by simpa using e2) (by simpa using e3)
                    subst this
                    rw [if_pos e1]
              · by_cases e1b : strLt n2 n1 = true
                · rw [if_neg e1, if_pos e1b] at h1
                  cases h1
                · have hn12 : n1 = n2 := strLt_connex _ _ (by simpa using e1) (by simpa using e1b)
                  subst hn12
                  rw [if_neg e1, if_neg e1b] at h1
                  by_cases e2 : strLt n1 n3 = true
                  · rw [if_pos e2]
                  · by_cases e3 : strLt n3 n1 = true
                    · rw [if_neg e2, if_pos e3] at h2
                      cases h2
                    · have hn13 : n1 = n3 := strLt_connex n1 n3 (by simpa using e2) (by simpa using e3)
                      subst hn13
                      rw [if_neg e2, if_neg e3] at h2
                      rw [if_neg e2, if_neg e3]
                      exact strLt_trans _ _ _ h1 h2

theorem elLt_irrefl (a : ImportedElement) : elLt a a = false := by
  cases h : elLt a a
  · rfl
  · have := elLt_asymm a a h
    rw [this] at h
    cases h

/-- Two set-inserts commute, for a strict comparison that is asymmetric,
connex and transitive. -/
theorem sinsert_comm {α : Type} [DecidableEq α] (lt : α → α → Bool)
    (hasymm : ∀ x y, lt x y = true → lt y x = false)
    (hconn : ∀ x y, lt x y = false → lt y x = false → x = y)
    (htrans : ∀ x y z, lt x y = true → lt y z = true → lt x z = true) :
    ∀ (a b : α) (s : List α), sinsert lt a (sinsert lt b s) = sinsert lt b (sinsert lt a s) := by
  have htotal : ∀ x y : α, x ≠ y → lt x y = false → lt y x = true := by
    intro x y hxy hf
    cases hyx : lt y x
    · exact absurd (hconn x y hf hyx) hxy
    · rfl
  have hirr : ∀ x : α, lt x x = false := by
    intro x
    cases hx : lt x x
    · rfl
    · have := hasymm x x hx
      rw [this] at hx
      cases hx
  intro a b
  by_cases hab : a = b
  · subst hab; intro s; rfl
  intro s
  induction s with
  | nil =>
      by_cases h1 : lt a b = true
      · simp [sinsert, h1, hasymm a b h1, hab, Ne.symm hab]
      · have h2 : lt b a = true := htotal a b hab (by simpa using h1)
        simp [sinsert, h1, h2, hab, Ne.symm hab]
  | cons c cs ih =>
      by_cases hbc : lt b c = true
      · by_cases hac : lt a c = true
        · by_cases h1 : lt a b = true
          · simp [sinsert, hbc, hac, h1, hasymm a b h1, hab, Ne.symm hab]
          · have h2 : lt b a = true := htotal a b hab (by simpa using h1)
            simp [sinsert, hbc, hac, h1, h2, hab, Ne.symm hab]
        · by_cases haeq : a = c
          · subst haeq
            simp [sinsert, hbc, hac, hirr, hasymm b a hbc, Ne.symm hab]
          · have hnab : lt a b = false := by
              cases hx : lt a b
              · rfl
              · exact absurd (htrans a b c hx hbc) (by simpa using hac)
            simp [sinsert, hbc, hac, haeq, hnab, hab]
      · by_cases hbeq : b = c
        · subst hbeq
          by_cases hac : lt a b = true
          · simp [sinsert, hbc, hac, hab, hasymm a b hac, hirr]
          · simp [sinsert, hbc, hac, hab, Ne.symm hab, hirr]
        · by_cases hac : lt a c = true
          · have hnba : lt b a = false := by
              cases hx : lt b a
              · rfl
              · exact absurd (htrans b a c hx hac) (by simpa using hbc)
            have hnab : b ≠ a := Ne.symm hab
            simp [sinsert, hbc, hbeq, hac, hnba, hnab]
          · by_cases haeq : a = c
            · subst haeq
              simp [sinsert, hbc, hbeq, hac, hirr]
            · simp [sinsert, hbc, hbeq, hac, haeq, ih]

/-- Two map updates at different keys commute. -/
theorem insertModule_comm_ne (m m' : ItemStr) (hne : m ≠ m') (f g : Module → Module) :
    ∀ acc, insertModule m f (insertModule m' g acc) = insertModule m' g (insertModule m f acc) := by
  intro acc
  induction acc with
  | nil =>
      by_cases h1 : strLt m m' = true
      · simp [insertModule, h1, strLt_asymm m m' h1, hne, Ne.symm hne]
      · have h2 : strLt m' m = true := strLt_total m m' hne (by simpa using h1)
        simp [insertModule, h1, h2, hne, Ne.symm hne]
  | cons kv acc ih =>
      obtain ⟨k, v⟩ := kv
      by_cases hm'k : strLt m' k = true
      · by_cases hmk : strLt m k = true
        · by_cases h1 : strLt m m' = true
          · simp [insertModule, hm'k, hmk, h1, strLt_asymm m m' h1, hne, Ne.symm hne]
          · have h2 : strLt m' m = true := strLt_total m m' hne (by simpa using h1)
            simp [insertModule, hm'k, hmk, h1, h2, hne, Ne.symm hne]
        · by_cases hmeq : m = k
          · subst hmeq
            simp [insertModule, hm'k, hmk, strLt_irrefl, strLt_asymm m' m hm'k, hne,
              Ne.symm hne]
          · have hkm : strLt k m = true := strLt_total m k hmeq (by simpa using hmk)
            have hm'm : strLt m' m = true := strLt_trans m' k m hm'k hkm
            have hnmm' : strLt m m' = false := strLt_asymm m' m hm'm
            simp [insertModule, hm'k, hmk, hmeq, hnmm', hne, Ne.symm hne]
      · by_cases hm'eq : m' = k
        · subst hm'eq
          by_cases hmk : strLt m m' = true
          · simp [insertModule, hm'k, hmk, hne, Ne.symm hne, strLt_asymm m m' hmk,
              strLt_irrefl]
          · simp [insertModule, hm'k, hmk, hne, Ne.symm hne, strLt_irrefl]
        · by_cases hmk : strLt m k = true
          · have hkm' : strLt k m' = true := strLt_total m' k hm'eq (by simpa using hm'k)
            have hmm' : strLt m m' = true := strLt_trans m k m' hmk hkm'
            have hnm'm : strLt m' m = false := strLt_asymm m m' hmm'
            simp [insertModule, hm'k, hm'eq, hmk, hnm'm, hne, Ne.symm hne]
          · by_cases hmeq : m = k
            · subst hmeq
              simp [insertModule, hm'k, hm'eq, hmk]
            · simp [insertModule, hm'k, hm'eq, hmk, hmeq, ih]

/-- Two map updates at the same key compose. -/
theorem insertModule_same (m : ItemStr) (f g : Module → Module) :
    ∀ acc, insertModule m f (insertModule m g acc)
      = insertModule m (fun v => f (g v)) acc := by
  intro acc
  induction acc with
  | nil => simp [insertModule, strLt_irrefl]
  | cons kv acc ih =>
      obtain ⟨k, v⟩ := kv
      by_cases hmk : strLt m k = true
      · simp [insertModule, hmk, strLt_irrefl]
      · by_cases hmeq : m = k
        · subst hmeq
          simp [insertModule, hmk, strLt_irrefl]
        · simp [insertModule, hmk, hmeq, ih]

/-- Two grouping steps commute, provided they are not two differently-named
default imports of the same module. -/
theorem collectStep_comm (x y : JsItem)
    (hxy : ∀ m n n', x = JsItem.ImportDefault m n → y = JsItem.ImportDefault m n' → n = n') :
    ∀ acc, collectStep (collectStep acc x) y = collectStep (collectStep acc y) x := by
  intro acc
  cases x with
  | Local nx => rfl
  | Import mx nx ax =>
      cases y with
      | Local ny => rfl
      | Import my ny ay =>
          by_cases hm : mx = my
          · subst hm
            show insertModule mx _ (insertModule mx _ acc)
              = insertModule mx _ (insertModule mx _ acc)
            rw [insertModule_same, insertModule_same]
            congr 1
            funext v
            simp [sinsert_comm elLt elLt_asymm elLt_connex elLt_trans]
          · exact insertModule_comm_ne my mx (Ne.symm (by exact hm)) _ _ acc
      | ImportDefault my ny =>
          by_cases hm : mx = my
          · subst hm
            show insertModule mx _ (insertModule mx _ acc)
              = insertModule mx _ (insertModule mx _ acc)
            rw [insertModule_same, insertModule_same]
          · exact insertModule_comm_ne my mx (Ne.symm (by exact hm)) _ _ acc
  | ImportDefault mx nx =>
      cases y with
      | Local ny => rfl
      | Import my ny ay =>
          by_cases hm : mx = my
          · subst hm
            show insertModule mx _ (insertModule mx _ acc)
              = insertModule mx _ (insertModule mx _ acc)
            rw [insertModule_same, insertModule_same]
          · exact insertModule_comm_ne my mx (Ne.symm (by exact hm)) _ _ acc
      | ImportDefault my ny =>
          by_cases hm : mx = my
          · subst hm
            have hn : nx = ny := hxy mx nx ny rfl rfl
            subst hn
            rfl
          · exact insertModule_comm_ne my mx (Ne.symm (by exact hm)) _ _ acc

/-- The grouping pass is invariant under permutation of the descriptor
sequence, as long as no module has two differently-named default imports. -/
theorem collectModules_perm (ds1 ds2 : List JsItem) (hperm : List.Perm ds1 ds2)
    (hcons : ∀ m n n', JsItem.ImportDefault m n ∈ ds1 →
        JsItem.ImportDefault m n' ∈ ds1 → n = n') :
    collectModules ds1 = collectModules ds2 := by
  unfold collectModules
  refine hperm.foldl_eq' ?_ []
  intro x hx y hy z
  refine collectStep_comm x y ?_ z
  intro m n n' hxd hyd
  exact hcons m n n' (hxd ▸ hx) (hyd ▸ hy)

/-- Counterexample to C1 as stated: two streams carrying the same
multiset of import descriptors (two differently-named default imports of
module `m`, in
the two orders) render different import preambles — the collation is
last-write-wins on the default import, hence order-dependent. -/
theorem claim_C1_counterexample :
    List.Perm
        (Tokens.walk_imports JsItem.as_import
          (⟨[Item.langBox (JsItem.ImportDefault "m" "b"),
             Item.langBox (JsItem.ImportDefault "m" "a")]⟩ : Tokens JsItem))
        (Tokens.walk_imports JsItem.as_import
          (⟨[Item.langBox (JsItem.ImportDefault "m" "a"),
             Item.langBox (JsItem.ImportDefault "m" "b")]⟩ : Tokens JsItem))
    ∧ JavaScript.imports
        (⟨[Item.langBox (JsItem.ImportDefault "m" "b"),
           Item.langBox (JsItem.ImportDefault "m" "a")]⟩ : Tokens JsItem) Tokens.new
      ≠ JavaScript.imports
          (⟨[Item.langBox (JsItem.ImportDefault "m" "a"),
             Item.langBox (JsItem.ImportDefault "m" "b")]⟩ : Tokens JsItem) Tokens.new
    ∧ JavaScript.write_file
        (⟨[Item.langBox (JsItem.ImportDefault "m" "b"),
           Item.langBox (JsItem.ImportDefault "m" "a")]⟩ : Tokens JsItem) Formatter.init
      ≠ JavaScript.write_file
          (⟨[Item.langBox (JsItem.ImportDefault "m" "a"),
             Item.langBox (JsItem.ImportDefault "m" "b")]⟩ : Tokens JsItem) Formatter.init := by
  refine ⟨by decide, by decide, by decide⟩

/-- C1 (amended): for streams whose walked import descriptors are equal as
multisets and contain no two differently-named default imports of one
module, the collation output — both the produced preamble token stream and
its rendered bytes — is identical. -/
theorem claim_C1_order_independence (t1 t2 : Tokens JsItem)
    (hperm : List.Perm (Tokens.walk_imports JsItem.as_import t1)
        (Tokens.walk_imports JsItem.as_import t2))
    (hcons : ∀ m n n',
        JsItem.ImportDefault m n ∈ Tokens.walk_imports JsItem.as_import t1 →
        JsItem.ImportDefault m n' ∈ Tokens.walk_imports JsItem.as_import t1 → n = n') :
    JavaScript.imports t1 Tokens.new = JavaScript.imports t2 Tokens.new
    ∧ Tokens.format jsHooks (JavaScript.imports t1 Tokens.new) Formatter.init
        = Tokens.format jsHooks (JavaScript.imports t2 Tokens.new) Formatter.init := by
  have hcoll : collectModules (Tokens.walk_imports JsItem.as_import t1)
      = collectModules (Tokens.walk_imports JsItem.as_import t2) :=
    collectModules_perm _ _ hperm hcons
  have h1 : JavaScript.imports t1 Tokens.new = JavaScript.imports t2 Tokens.new := by
    unfold JavaScript.imports
    rw [hcoll]
  exact ⟨h1, by rw [h1]⟩

theorem str_append_ne_empty_right {a b : String} (hb : b ≠ "") : a ++ b ≠ "" := by
  intro h
  apply hb
  have hd := congrArg String.data h
  rw [String.data_append] at hd
  have hnil : b.data = [] := (List.append_eq_nil.mp hd).2
  cases b
  simp_all

theorem writeStr_pendingSpace (out : Formatter) (s : String) (hs : s ≠ "") :
    (out.writeStr s).pendingSpace = false := by
  simp [Formatter.writeStr, hs]

theorem elementSpec_ne_empty (e : ImportedElement) (h : elemNonempty e) :
    elementSpec e ≠ "" := by
  cases e with
  | Plain n => exact h
  | Aliased n a => exact str_append_ne_empty_left (str_append_ne_empty_left h.1)

theorem joinSep_ne_empty (es : List ImportedElement) (hne : es ≠ [])
    (h : ∀ e ∈ es, elemNonempty e) : joinSep ", " (es.map elementSpec) ≠ "" := by
  cases es with
  | nil => exact absurd rfl hne
  | cons e rest =>
      have he : elemNonempty e := h e (by simp)
      cases rest with
      | nil => exact elementSpec_ne_empty e he
      | cons e2 rest2 =>
          show (elementSpec e ++ ", "
              ++ joinSep ", " (elementSpec e2 :: rest2.map elementSpec)) ≠ ""
          exact str_append_ne_empty_left (str_append_ne_empty_right (by decide))

/-- One loop step for a literal at the base frame (not in a quote). -/
theorem step_literal (s : String) (rest : List (Item JsItem)) (out : Formatter) :
    formatLoop jsHooks (Item.literal s :: rest) [Frame.base] out
      = formatLoop jsHooks rest [Frame.base] (out.writeStr s) := by
  simp [formatLoop, Frame.base]

theorem step_space (rest : List (Item JsItem)) (out : Formatter) :
    formatLoop jsHooks (Item.space :: rest) [Frame.base] out
      = formatLoop jsHooks rest [Frame.base] out.space := rfl

theorem step_push (rest : List (Item JsItem)) (out : Formatter) :
    formatLoop jsHooks (Item.push :: rest) [Frame.base] out
      = formatLoop jsHooks rest [Frame.base] out.push := rfl

theorem step_line (rest : List (Item JsItem)) (out : Formatter) :
    formatLoop jsHooks (Item.line :: rest) [Frame.base] out
      = formatLoop jsHooks rest [Frame.base] out.line := rfl

/-- A quoted module name at the base frame: quote-open, escaped text,
quote-close. -/
theorem step_quoted (m : String) (rest : List (Item JsItem)) (out : Formatter) :
    formatLoop jsHooks
        (Item.openQuote false :: Item.literal m :: Item.closeQuote :: rest)
        [Frame.base] out
      = formatLoop jsHooks rest [Frame.base]
          (((out.writeStr "\"").writeStr (jsEscape m)).writeStr "\"") := by
  simp [formatLoop, Frame.base, jsHooks]

/-- Rendering one named entry appends its spec text. -/
theorem run_element (e : ImportedElement) (he : elemNonempty e)
    (tail : List (Item JsItem)) (out : Formatter) :
    formatLoop jsHooks (elementItems e ++ tail) [Frame.base] out
      = formatLoop jsHooks tail [Frame.base] (out.writeStr (elementSpec e)) := by
  cases e with
  | Plain n =>
      simp only [elementItems, List.cons_append, List.nil_append]
      exact step_literal n tail out
  | Aliased n a =>
      obtain ⟨hn, ha⟩ := he
      simp only [elementItems, List.cons_append, List.nil_append]
      rw [step_literal, step_space, step_literal, step_space, step_literal]
      congr 1
      rw [space_writeStr _ (writeStr_pendingSpace out n hn) _ (by decide),
        writeStr_writeStr,
        space_writeStr _ (writeStr_pendingSpace out _ (str_append_ne_empty_left hn)) _ ha,
        writeStr_writeStr]
      congr 1
      show n ++ (" " ++ "as") ++ (" " ++ a) = n ++ " as " ++ a
      rw [show (" as " : String) = " " ++ "as" ++ " " from rfl]
      simp only [String.append_assoc]

/-- Rendering a non-empty entry list appends the comma-joined spec texts. -/
theorem run_elements :
    ∀ es : List ImportedElement, es ≠ [] → (∀ e ∈ es, elemNonempty e) →
      ∀ (tail : List (Item JsItem)) (out : Formatter),
        formatLoop jsHooks (elementsItems es ++ tail) [Frame.base] out
          = formatLoop jsHooks tail [Frame.base]
              (out.writeStr (joinSep ", " (es.map elementSpec))) := by
  intro es
  induction es with
  | nil => intro h; exact absurd rfl h
  | cons e rest ih =>
      intro _ hall tail out
      cases rest with
      | nil =>
          show formatLoop jsHooks (elementItems e ++ tail) [Frame.base] out = _
          rw [run_element e (hall e (by simp)) tail out]
          rfl
      | cons e2 rest2 =>
          show formatLoop jsHooks
              ((elementItems e ++ [Item.literal ",", Item.space]
                ++ elementsItems (e2 :: rest2)) ++ tail) [Frame.base] out = _
          rw [List.append_assoc, List.append_assoc,
            run_element e (hall e (by simp)) _ out]
          show formatLoop jsHooks
              (Item.literal "," :: Item.space :: (elementsItems (e2 :: rest2) ++ tail))
              [Frame.base] (out.writeStr (elementSpec e)) = _
          rw [step_literal, step_space,
            ih (by simp) (by intro x hx; exact hall x (by simp [hx])) tail _]
          congr 1
          rw [writeStr_writeStr]
          have hJ : joinSep ", " ((e2 :: rest2).map elementSpec) ≠ "" :=
            joinSep_ne_empty _ (by simp) (by intro x hx; exact hall x (by simp [hx]))
          rw [space_writeStr _
              (writeStr_pendingSpace out _ (str_append_ne_empty_right (by decide))) _ hJ,
            writeStr_writeStr]
          congr 1
          show elementSpec e ++ "," ++ (" " ++ joinSep ", " ((e2 :: rest2).map elementSpec))
              = elementSpec e ++ ", " ++ joinSep ", " ((e2 :: rest2).map elementSpec)
          rw [show (", " : String) = "," ++ " " from rfl]
          simp only [String.append_assoc]

/-- Witness for the amended C1: two named imports discovered in either order
produce the same preamble. -/
theorem claim_C1_witness :
    JavaScript.imports
        (⟨[Item.langBox (JsItem.Import "b" "y" none),
           Item.langBox (JsItem.Import "a" "x" none)]⟩ : Tokens JsItem) Tokens.new
      = JavaScript.imports
          (⟨[Item.langBox (JsItem.Import "a" "x" none),
             Item.langBox (JsItem.Import "b" "y" none)]⟩ : Tokens JsItem) Tokens.new
    ∧ Tokens.format jsHooks
        (JavaScript.imports
          (⟨[Item.langBox (JsItem.Import "b" "y" none),
             Item.langBox (JsItem.Import "a" "x" none)]⟩ : Tokens JsItem) Tokens.new)
        Formatter.init
      = Tokens.format jsHooks
          (JavaScript.imports
            (⟨[Item.langBox (JsItem.Import "a" "x" none),
               Item.langBox (JsItem.Import "b" "y" none)]⟩ : Tokens JsItem) Tokens.new)
          Formatter.init :=
  claim_C1_order_independence _ _ (by decide)
    (by
      intro m n n' h1 h2
      simp [Tokens.walk_imports, Tokens.stream, walkAll, projectItem, JsItem.as_import] at h1)

theorem strData_inj {a b : String} (h : a.data = b.data) : a = b := by
  cases a
  cases b
  simp_all

theorem str_append_empty (s : String) : s ++ "" = s := by
  apply strData_inj
  rw [String.data_append]
  show s.data ++ [] = s.data
  exact List.append_nil _

theorem str_empty_append (s : String) : "" ++ s = s := by
  apply strData_inj
  rw [String.data_append]
  show [] ++ s.data = s.data
  exact List.nil_append _

/-- An import statement's text is never empty (it ends in the semicolon). -/
theorem stmtSpec_ne_empty (m : ItemStr) (M : Module) : importStatementSpec m M ≠ "" :=
  str_append_ne_empty_right (by decide)

/-- A write, a space directive and another write fuse into a single write
with a space in between (both written texts non-empty). -/
theorem writeStr_space_writeStr (out : Formatter) (a b : String) (ha : a ≠ "") (hb : b ≠ "") :
    (((out.writeStr a).space).writeStr b) = out.writeStr (a ++ " " ++ b) := by
  rw [space_writeStr _ (writeStr_pendingSpace out a ha) b hb, writeStr_writeStr,
    String.append_assoc]

/-- Rendering one pushed import statement appends exactly its spec text
after a push, for every module that actually has imports. -/
theorem run_stmt (m : ItemStr) (M : Module)
    (hM : M.default_import ≠ none ∨ M.set ≠ [])
    (hd : ∀ x, M.default_import = some x → x ≠ "")
    (hels : ∀ e ∈ M.set, elemNonempty e)
    (tail : List (Item JsItem)) (out : Formatter) :
    formatLoop jsHooks ((Item.push :: stmtItems (m, M)) ++ tail) [Frame.base] out
      = formatLoop jsHooks tail [Frame.base]
          (out.push.writeStr (importStatementSpec m M)) := by
  obtain ⟨dflt, set⟩ := M
  cases dflt with
  | some d =>
      have hdne : d ≠ "" := hd d rfl
      cases set with
      | nil =>
          have hit : stmtItems (m, (⟨some d, []⟩ : Module)) ++ tail
              = Item.literal "import" :: Item.space :: Item.literal d :: Item.space
                  :: Item.literal "from" :: Item.space :: Item.openQuote false
                  :: Item.literal m :: Item.closeQuote :: Item.literal ";" :: tail := by
            simp [stmtItems, bindingItems]
          rw [List.cons_append, step_push, hit,
            step_literal, step_space, step_literal,
            writeStr_space_writeStr _ _ _ (by decide) hdne,
            step_space, step_literal,
            writeStr_space_writeStr _ _ _ (str_append_ne_empty_right hdne) (by decide),
            step_space, step_quoted,
            writeStr_space_writeStr _ _ _ (str_append_ne_empty_right (by decide)) (by decide),
            writeStr_writeStr, writeStr_writeStr,
            step_literal, writeStr_writeStr]
          congr 1
          congr 1
          have hspec : importStatementSpec m (⟨some d, []⟩ : Module)
              = "import " ++ (d ++ "") ++ "" ++ " from \"" ++ jsEscape m ++ "\";" := rfl
          rw [hspec]
          simp only [str_append_empty]
          rw [show ("import " : String) = "import" ++ " " from rfl,
            show (" from \"" : String) = " " ++ "from" ++ " " ++ "\"" from rfl,
            show ("\";" : String) = "\"" ++ ";" from rfl]
          simp only [String.append_assoc]
      | cons e es =>
          have hels2 : ∀ x ∈ e :: es, elemNonempty x := hels
          have hit : stmtItems (m, (⟨some d, e :: es⟩ : Module)) ++ tail
              = Item.literal "import" :: Item.space :: Item.literal d :: Item.literal ","
                  :: Item.space :: Item.literal "\x7b"
                  :: (elementsItems (e :: es)
                      ++ (Item.literal "\x7d" :: Item.space :: Item.literal "from"
                          :: Item.space :: Item.openQuote false :: Item.literal m
                          :: Item.closeQuote :: Item.literal ";" :: tail)) := by
            simp [stmtItems, bindingItems]
          rw [List.cons_append, step_push, hit,
            step_literal, step_space, step_literal,
            writeStr_space_writeStr _ _ _ (by decide) hdne,
            step_literal, writeStr_writeStr,
            step_space, step_literal,
            writeStr_space_writeStr _ _ _ (str_append_ne_empty_right (by decide)) (by decide),
            run_elements (e :: es) (by simp) hels2,
            writeStr_writeStr,
            step_literal, writeStr_writeStr,
            step_space, step_literal,
            writeStr_space_writeStr _ _ _ (str_append_ne_empty_right (by decide)) (by decide),
            step_space, step_quoted,
            writeStr_space_writeStr _ _ _ (str_append_ne_empty_right (by decide)) (by decide),
            writeStr_writeStr, writeStr_writeStr,
            step_literal, writeStr_writeStr]
          congr 1
          congr 1
          have hspec : importStatementSpec m (⟨some d, e :: es⟩ : Module)
              = "import " ++ (d ++ ", ")
                  ++ ("\x7b" ++ joinSep ", " ((e :: es).map elementSpec) ++ "\x7d")
                  ++ " from \"" ++ jsEscape m ++ "\";" := rfl
          rw [hspec,
            show ("import " : String) = "import" ++ " " from rfl,
            show (", " : String) = "," ++ " " from rfl,
            show (" from \"" : String) = " " ++ "from" ++ " " ++ "\"" from rfl,
            show ("\";" : String) = "\"" ++ ";" from rfl]
          simp only [String.append_assoc]
  | none =>
      cases set with
      | nil =>
          rcases hM with h | h
          · exact absurd rfl h
          · exact absurd rfl h
      | cons e es =>
          have hels2 : ∀ x ∈ e :: es, elemNonempty x := hels
          have hit : stmtItems (m, (⟨none, e :: es⟩ : Module)) ++ tail
              = Item.literal "import" :: Item.space :: Item.literal "\x7b"
                  :: (elementsItems (e :: es)
                      ++ (Item.literal "\x7d" :: Item.space :: Item.literal "from"
                          :: Item.space :: Item.openQuote false :: Item.literal m
                          :: Item.closeQuote :: Item.literal ";" :: tail)) := by
            simp [stmtItems, bindingItems]
          rw [List.cons_append, step_push, hit,
            step_literal, step_space, step_literal,
            writeStr_space_writeStr _ _ _ (by decide) (by decide),
            run_elements (e :: es) (by simp) hels2,
            writeStr_writeStr,
            step_literal, writeStr_writeStr,
            step_space, step_literal,
            writeStr_space_writeStr _ _ _ (str_append_ne_empty_right (by decide)) (by decide),
            step_space, step_quoted,
            writeStr_space_writeStr _ _ _ (str_append_ne_empty_right (by decide)) (by decide),
            writeStr_writeStr, writeStr_writeStr,
            step_literal, writeStr_writeStr]
          congr 1
          congr 1
          have hspec : importStatementSpec m (⟨none, e :: es⟩ : Module)
              = "import " ++ ""
                  ++ ("\x7b" ++ joinSep ", " ((e :: es).map elementSpec) ++ "\x7d")
                  ++ " from \"" ++ jsEscape m ++ "\";" := rfl
          rw [hspec]
          simp only [str_append_empty]
          rw [show ("import " : String) = "import" ++ " " from rfl,
            show (" from \"" : String) = " " ++ "from" ++ " " ++ "\"" from rfl,
            show ("\";" : String) = "\"" ++ ";" from rfl]
          simp only [String.append_assoc]

theorem literal_items {L : Type} (o : Tokens L) (s : ItemStr) :
    (o.literal s).items = Item.literal s :: o.items := rfl

/-- A space directive after a literal is recorded (no coalescing). -/
theorem space_items_lit {L : Type} (o : Tokens L) (s : ItemStr) (l : List (Item L))
    (h : o.items = Item.literal s :: l) :
    o.space.items = Item.space :: o.items := by
  obtain ⟨items⟩ := o
  simp only at h
  subst h
  rfl

/-- A push onto an empty or literal-ended stream is recorded (no
coalescing). -/
theorem push_items_litHeaded {L : Type} (o : Tokens L) (h : litHeaded o) :
    o.push.items = Item.push :: o.items := by
  obtain ⟨items⟩ := o
  rcases h with h | ⟨s, l, h⟩
  · simp only at h
    subst h
    rfl
  · simp only at h
    subst h
    rfl

/-- `emitElement` appends exactly the element's item sequence. -/
theorem emitElement_items (o : Tokens JsItem) (e : ImportedElement) :
    (emitElement o e).items = (elementItems e).reverse ++ o.items := by
  cases e <;> rfl

/-- `emitElements` appends exactly the comma-separated item sequence. -/
theorem emitElements_items :
    ∀ (es : List ImportedElement), es ≠ [] → ∀ (o : Tokens JsItem),
      (emitElements o es).items = (elementsItems es).reverse ++ o.items := by
  intro es
  induction es with
  | nil => intro h; exact absurd rfl h
  | cons e rest ih =>
      intro _ o
      cases rest with
      | nil => exact emitElement_items o e
      | cons e2 rest2 =>
          show (emitElements (((emitElement o e).literal ",").space) (e2 :: rest2)).items = _
          rw [ih (by simp)]
          have h1 : (((emitElement o e).literal ",").space).items
              = Item.space :: Item.literal "," :: (emitElement o e).items :=
            space_items_lit _ "," (emitElement o e).items rfl
          rw [h1, emitElement_items]
          simp [elementsItems, List.reverse_append, List.append_assoc]

/-- `emitModule` appends exactly the pushed statement's item sequence, for
every module that actually has imports, onto a literal-ended (or empty)
output. -/
theorem emitModule_items (o : Tokens JsItem) (m : ItemStr) (M : Module)
    (ho : litHeaded o) (hM : M.default_import ≠ none ∨ M.set ≠ []) :
    (emitModule o (m, M)).items = (Item.push :: stmtItems (m, M)).reverse ++ o.items := by
  obtain ⟨dflt, set⟩ := M
  cases dflt with
  | some d =>
      cases set with
      | nil =>
          have h : (emitModule o (m, (⟨some d, []⟩ : Module))).items
              = Item.literal ";" :: Item.closeQuote :: Item.literal m
                  :: Item.openQuote false :: Item.space :: Item.literal "from"
                  :: Item.space :: Item.literal d :: Item.space
                  :: Item.literal "import" :: (o.push).items := rfl
          rw [h, push_items_litHeaded o ho]
          simp [stmtItems, bindingItems]
      | cons e es =>
          have h : (emitModule o (m, (⟨some d, e :: es⟩ : Module))).items
              = Item.literal ";" :: Item.closeQuote :: Item.literal m
                  :: Item.openQuote false :: Item.space :: Item.literal "from"
                  :: Item.space :: Item.literal "\x7d"
                  :: (emitElements
                      (⟨Item.literal "\x7b" :: Item.space :: Item.literal ","
                          :: Item.literal d :: Item.space :: Item.literal "import"
                          :: (o.push).items⟩ : Tokens JsItem)
                      (e :: es)).items := rfl
          rw [h, emitElements_items (e :: es) (by simp), push_items_litHeaded o ho]
          simp [stmtItems, bindingItems, List.reverse_append, List.append_assoc]
  | none =>
      cases set with
      | nil =>
          rcases hM with h | h
          · exact absurd rfl h
          · exact absurd rfl h
      | cons e es =>
          have h : (emitModule o (m, (⟨none, e :: es⟩ : Module))).items
              = Item.literal ";" :: Item.closeQuote :: Item.literal m
                  :: Item.openQuote false :: Item.space :: Item.literal "from"
                  :: Item.space :: Item.literal "\x7d"
                  :: (emitElements
                      (⟨Item.literal "\x7b" :: Item.space :: Item.literal "import"
                          :: (o.push).items⟩ : Tokens JsItem)
                      (e :: es)).items := rfl
          rw [h, emitElements_items (e :: es) (by simp), push_items_litHeaded o ho]
          simp [stmtItems, bindingItems, List.reverse_append, List.append_assoc]

/-- A pushed statement's item sequence, reversed, starts with its final
semicolon. -/
theorem stmtItems_rev (p : ItemStr × Module) :
    ∃ l, (Item.push :: stmtItems p).reverse = Item.literal ";" :: l := by
  have hx : Item.push :: stmtItems p
      = (Item.push :: Item.literal "import" :: Item.space
          :: (bindingItems p.2 ++ [Item.space, Item.literal "from", Item.space,
              Item.openQuote false, Item.literal p.1, Item.closeQuote]))
        ++ [Item.literal ";"] := by
    simp [stmtItems]
  refine ⟨(Item.push :: Item.literal "import" :: Item.space
      :: (bindingItems p.2 ++ [Item.space, Item.literal "from", Item.space,
          Item.openQuote false, Item.literal p.1, Item.closeQuote])).reverse, ?_⟩
  rw [hx, List.reverse_append]
  rfl

/-- `emitModule` leaves the output literal-ended. -/
theorem emitModule_litHeaded (o : Tokens JsItem) (m : ItemStr) (M : Module)
    (ho : litHeaded o) (hM : M.default_import ≠ none ∨ M.set ≠ []) :
    litHeaded (emitModule o (m, M)) := by
  right
  obtain ⟨l, hl⟩ := stmtItems_rev (m, M)
  refine ⟨";", l ++ o.items, ?_⟩
  rw [emitModule_items o m M ho hM, hl]
  rfl

/-- The per-module loop of `JavaScript::imports` appends exactly the
preamble item sequence. -/
theorem foldl_emitModule :
    ∀ (ms : List (ItemStr × Module)),
      (∀ p ∈ ms, p.2.default_import ≠ none ∨ p.2.set ≠ []) →
      ∀ o : Tokens JsItem, litHeaded o →
        (ms.foldl emitModule o).items = (preambleItems ms).reverse ++ o.items := by
  intro ms
  induction ms with
  | nil =>
      intro _ o _
      rfl
  | cons p rest ih =>
      intro hall o ho
      obtain ⟨m, M⟩ := p
      have hM : M.default_import ≠ none ∨ M.set ≠ [] := hall (m, M) (by simp)
      show ((rest.foldl emitModule (emitModule o (m, M)))).items = _
      rw [ih (fun q hq => hall q (by simp [hq])) _ (emitModule_litHeaded o m M ho hM),
        emitModule_items o m M ho hM]
      simp [preambleItems, List.reverse_append, List.append_assoc]

/-- A non-empty preamble's item sequence, reversed, starts with the final
semicolon of its last statement. -/
theorem preamble_rev :
    ∀ ms : List (ItemStr × Module), ms ≠ [] →
      ∃ l, (preambleItems ms).reverse = Item.literal ";" :: l := by
  intro ms
  induction ms with
  | nil => intro h; exact absurd rfl h
  | cons p rest ih =>
      intro _
      cases rest with
      | nil =>
          obtain ⟨l, hl⟩ := stmtItems_rev p
          refine ⟨l, ?_⟩
          show ((Item.push :: stmtItems p) ++ preambleItems []).reverse = _
          rw [show preambleItems [] = [] from rfl, List.append_nil, hl]
      | cons q rest2 =>
          obtain ⟨l, hl⟩ := ih (by simp)
          refine ⟨l ++ (Item.push :: stmtItems p).reverse, ?_⟩
          show ((Item.push :: stmtItems p) ++ preambleItems (q :: rest2)).reverse = _
          rw [List.reverse_append, hl]
          rfl

/-- The stream appended by `JavaScript::imports` onto a fresh output: the
preamble, then one blank-line directive. -/
theorem imports_stream (t : Tokens JsItem)
    (hall : ∀ p ∈ collectModules (Tokens.walk_imports JsItem.as_import t),
        p.2.default_import ≠ none ∨ p.2.set ≠ [])
    (hne : collectModules (Tokens.walk_imports JsItem.as_import t) ≠ []) :
    (JavaScript.imports t Tokens.new).stream
      = preambleItems (collectModules (Tokens.walk_imports JsItem.as_import t))
          ++ [Item.line] := by
  have hie : (collectModules (Tokens.walk_imports JsItem.as_import t)).isEmpty = false := by
    cases h : collectModules (Tokens.walk_imports JsItem.as_import t) with
    | nil => exact absurd h hne
    | cons a l => rfl
  have hf := foldl_emitModule (collectModules (Tokens.walk_imports JsItem.as_import t))
    hall Tokens.new (Or.inl rfl)
  rw [show (Tokens.new : Tokens JsItem).items = [] from rfl, List.append_nil] at hf
  obtain ⟨l, hl⟩ := preamble_rev _ hne
  have hF : ((collectModules (Tokens.walk_imports JsItem.as_import t)).foldl
      emitModule Tokens.new).items = Item.literal ";" :: l := by
    rw [hf, hl]
  show (if (collectModules (Tokens.walk_imports JsItem.as_import t)).isEmpty = true
      then Tokens.new
      else ((collectModules (Tokens.walk_imports JsItem.as_import t)).foldl
        emitModule Tokens.new).line).stream = _
  rw [hie]
  simp only [Bool.false_eq_true, if_false]
  have hline : (((collectModules (Tokens.walk_imports JsItem.as_import t)).foldl
      emitModule Tokens.new).line).items
      = Item.line :: ((collectModules (Tokens.walk_imports JsItem.as_import t)).foldl
          emitModule Tokens.new).items := by
    simp only [Tokens.line, hF]
  show (((collectModules (Tokens.walk_imports JsItem.as_import t)).foldl
      emitModule Tokens.new).line).items.reverse = _
  rw [hline, hf]
  simp

theorem sinsert_ne_nil {α : Type} [DecidableEq α] (lt : α → α → Bool) (a : α) :
    ∀ l : List α, sinsert lt a l ≠ [] := by
  intro l
  cases l with
  | nil => simp [sinsert]
  | cons b rest =>
      simp only [sinsert]
      split
      · simp
      · split
        · simp
        · simp

theorem sinsert_mem {α : Type} [DecidableEq α] (lt : α → α → Bool) (a : α) :
    ∀ (l : List α) (x : α), x ∈ sinsert lt a l → x = a ∨ x ∈ l := by
  intro l
  induction l with
  | nil =>
      intro x hx
      simp [sinsert] at hx
      exact Or.inl hx
  | cons b rest ih =>
      intro x hx
      simp only [sinsert] at hx
      by_cases h1 : lt a b = true
      · rw [if_pos h1] at hx
        rcases List.mem_cons.mp hx with h | h
        · exact Or.inl h
        · exact Or.inr h
      · rw [if_neg (by simp [h1])] at hx
        by_cases h2 : a = b
        · rw [if_pos h2] at hx
          exact Or.inr hx
        · rw [if_neg h2] at hx
          rcases List.mem_cons.mp hx with h | h
          · exact Or.inr (by simp [h])
          · rcases ih x h with h3 | h3
            · exact Or.inl h3
            · exact Or.inr (by simp [h3])

theorem elLt_total (a b : ImportedElement) (hne : a ≠ b) (h : elLt a b = false) :
    elLt b a = true := by
  cases hba : elLt b a with
  | false => exact absurd (elLt_connex a b h hba) hne
  | true => rfl

/-- `BTreeSet::insert` keeps the set strictly sorted. -/
theorem sinsert_sorted_el (a : ImportedElement) :
    ∀ l, List.Pairwise (fun x y => elLt x y = true) l →
      List.Pairwise (fun x y => elLt x y = true) (sinsert elLt a l) := by
  intro l
  induction l with
  | nil => intro _; simp [sinsert]
  | cons b rest ih =>
      intro hp
      rw [List.pairwise_cons] at hp
      obtain ⟨hb, hrest⟩ := hp
      show List.Pairwise _
        (if elLt a b = true then a :: b :: rest
         else if a = b then b :: rest else b :: sinsert elLt a rest)
      by_cases hab : elLt a b = true
      · rw [if_pos hab, List.pairwise_cons]
        constructor
        · intro x hx
          rcases List.mem_cons.mp hx with h | h
          · rw [h]; exact hab
          · exact elLt_trans a b x hab (hb x h)
        · exact List.pairwise_cons.mpr ⟨hb, hrest⟩
      · have hab' : elLt a b = false := by
          cases h : elLt a b
          · rfl
          · exact absurd h hab
        rw [if_neg hab]
        by_cases heq : a = b
        · rw [if_pos heq]
          exact List.pairwise_cons.mpr ⟨hb, hrest⟩
        · rw [if_neg heq, List.pairwise_cons]
          constructor
          · intro x hx
            rcases sinsert_mem elLt a rest x hx with h | h
            · rw [h]; exact elLt_total a b heq hab'
            · exact hb x h
          · exact ih hrest

/-- Every key of the updated map is the inserted key or an existing one. -/
theorem insertModule_keys (m : ItemStr) (f : Module → Module) :
    ∀ (acc : List (ItemStr × Module)) (q : ItemStr × Module),
      q ∈ insertModule m f acc → q.1 = m ∨ q.1 ∈ acc.map Prod.fst := by
  intro acc
  induction acc with
  | nil =>
      intro q hq
      simp [insertModule] at hq
      rw [hq]
      exact Or.inl rfl
  | cons kv rest ih =>
      intro q hq
      obtain ⟨k, v⟩ := kv
      by_cases h1 : strLt m k = true
      · rw [show insertModule m f ((k, v) :: rest)
            = (m, f Module.empty) :: (k, v) :: rest from by
          simp only [insertModule]; rw [if_pos h1]] at hq
        rcases List.mem_cons.mp hq with h | h
        · rw [h]; exact Or.inl rfl
        · exact Or.inr (List.mem_map_of_mem Prod.fst h)
      · have h1f : strLt m k = false := by
          cases h : strLt m k
          · rfl
          · exact absurd h h1
        by_cases h2 : m = k
        · rw [show insertModule m f ((k, v) :: rest) = (k, f v) :: rest from by
            simp only [insertModule]; rw [if_neg (by simp [h1f]), if_pos h2]] at hq
          rcases List.mem_cons.mp hq with h | h
          · rw [h]; exact Or.inl h2.symm
          · exact Or.inr (List.mem_map_of_mem Prod.fst (by simp [h]))
        · rw [show insertModule m f ((k, v) :: rest) = (k, v) :: insertModule m f rest from by
            simp only [insertModule]; rw [if_neg (by simp [h1f]), if_neg h2]] at hq
          rcases List.mem_cons.mp hq with h | h
          · exact Or.inr (by rw [h]; simp)
          · rcases ih q h with h3 | h3
            · exact Or.inl h3
            · exact Or.inr (by simp; right; simpa using h3)

/-- A pointwise property survives `entry(..).or_default()` + update when the
update creates and preserves it. -/
theorem insertModule_props (P : ItemStr × Module → Prop) (m : ItemStr) (f : Module → Module)
    (hPe : P (m, f Module.empty)) (hP : ∀ M, P (m, M) → P (m, f M)) :
    ∀ acc : List (ItemStr × Module), (∀ p ∈ acc, P p) →
      ∀ q ∈ insertModule m f acc, P q := by
  intro acc
  induction acc with
  | nil =>
      intro _ q hq
      simp [insertModule] at hq
      rw [hq]
      exact hPe
  | cons kv rest ih =>
      intro hall q hq
      obtain ⟨k, v⟩ := kv
      by_cases h1 : strLt m k = true
      · rw [show insertModule m f ((k, v) :: rest)
            = (m, f Module.empty) :: (k, v) :: rest from by
          simp only [insertModule]; rw [if_pos h1]] at hq
        rcases List.mem_cons.mp hq with h | h
        · rw [h]; exact hPe
        · exact hall q h
      · have h1f : strLt m k = false := by
          cases h : strLt m k
          · rfl
          · exact absurd h h1
        by_cases h2 : m = k
        · rw [show insertModule m f ((k, v) :: rest) = (k, f v) :: rest from by
            simp only [insertModule]; rw [if_neg (by simp [h1f]), if_pos h2]] at hq
          rcases List.mem_cons.mp hq with h | h
          · subst h2
            rw [h]
            exact hP v (hall (m, v) (by simp))
          · exact hall q (by simp [h])
        · rw [show insertModule m f ((k, v) :: rest) = (k, v) :: insertModule m f rest from by
            simp only [insertModule]; rw [if_neg (by simp [h1f]), if_neg h2]] at hq
          rcases List.mem_cons.mp hq with h | h
          · exact hall q (by simp [h])
          · exact ih (fun p hp => hall p (by simp [hp])) q h

/-- `BTreeMap` keeps its keys strictly sorted under `entry`-updates. -/
theorem insertModule_sorted (m : ItemStr) (f : Module → Module) :
    ∀ acc : List (ItemStr × Module),
      List.Pairwise (fun p q => strLt p.1 q.1 = true) acc →
      List.Pairwise (fun p q => strLt p.1 q.1 = true) (insertModule m f acc) := by
  intro acc
  induction acc with
  | nil => intro _; simp [insertModule]
  | cons kv rest ih =>
      intro hp
      obtain ⟨k, v⟩ := kv
      rw [List.pairwise_cons] at hp
      obtain ⟨hk, hrest⟩ := hp
      by_cases h1 : strLt m k = true
      · rw [show insertModule m f ((k, v) :: rest)
            = (m, f Module.empty) :: (k, v) :: rest from by
          simp only [insertModule]; rw [if_pos h1]]
        rw [List.pairwise_cons]
        refine ⟨?_, List.pairwise_cons.mpr ⟨hk, hrest⟩⟩
        intro q hq
        rcases List.mem_cons.mp hq with h | h
        · rw [h]; exact h1
        · exact strLt_trans m k q.1 h1 (hk q h)
      · have h1f : strLt m k = false := by
          cases h : strLt m k
          · rfl
          · exact absurd h h1
        by_cases h2 : m = k
        · rw [show insertModule m f ((k, v) :: rest) = (k, f v) :: rest from by
            simp only [insertModule]; rw [if_neg (by simp [h1f]), if_pos h2]]
          exact List.pairwise_cons.mpr ⟨fun q hq => hk q hq, hrest⟩
        · rw [show insertModule m f ((k, v) :: rest) = (k, v) :: insertModule m f rest from by
            simp only [insertModule]; rw [if_neg (by simp [h1f]), if_neg h2]]
          rw [List.pairwise_cons]
          refine ⟨?_, ih hrest⟩
          intro q hq
          rcases insertModule_keys m f rest q hq with h | h
          · rw [h]; exact strLt_total m k h2 h1f
          · obtain ⟨p, hp1, hp2⟩ := List.mem_map.mp h
            rw [← hp2]
            exact hk p hp1

/-- A named-import step keeps every map entry well-formed. -/
theorem insertModule_import_ok (module : ItemStr) (el : ImportedElement)
    (helne : elemNonempty el) (acc : List (ItemStr × Module))
    (hall : ∀ p ∈ acc, ModOk p) :
    ∀ q ∈ insertModule module (fun M => { M with set := sinsert elLt el M.set }) acc,
      ModOk q := by
  refine insertModule_props ModOk module _ ?_ ?_ acc hall
  · refine ⟨Or.inr (sinsert_ne_nil elLt _ _), ?_, ?_, ?_⟩
    · intro x h
      exact absurd h (by simp [Module.empty])
    · intro e he
      rcases sinsert_mem elLt _ _ e he with h | h
      · rw [h]; exact helne
      · exact absurd h (by simp [Module.empty])
    · exact sinsert_sorted_el _ _ (by simp [Module.empty])
  · intro M hM
    obtain ⟨_, hdn, hen, hso⟩ := hM
    refine ⟨Or.inr (sinsert_ne_nil elLt _ _), hdn, ?_, sinsert_sorted_el _ _ hso⟩
    intro e he
    rcases sinsert_mem elLt _ _ e he with h | h
    · rw [h]; exact helne
    · exact hen e h

/-- One descriptor step preserves well-formedness and key order of the
collation map. -/
theorem collectStep_props (acc : List (ItemStr × Module)) (d : JsItem)
    (hwn : JsItem.wellNamed d) (hall : ∀ p ∈ acc, ModOk p)
    (hsort : List.Pairwise (fun p q => strLt p.1 q.1 = true) acc) :
    (∀ p ∈ collectStep acc d, ModOk p)
      ∧ List.Pairwise (fun p q => strLt p.1 q.1 = true) (collectStep acc d) := by
  cases d with
  | Local s => exact ⟨hall, hsort⟩
  | Import module name al =>
      obtain ⟨hn, ha⟩ := hwn
      constructor
      · cases al with
        | none => exact insertModule_import_ok module (ImportedElement.Plain name) hn acc hall
        | some a =>
            exact insertModule_import_ok module (ImportedElement.Aliased name a)
              ⟨hn, ha a rfl⟩ acc hall
      · exact insertModule_sorted module _ acc hsort
  | ImportDefault module name =>
      constructor
      · refine insertModule_props ModOk module _ ?_ ?_ acc hall
        · refine ⟨Or.inl (by simp [Module.empty]), ?_, ?_, ?_⟩
          · intro x h
            have hx : x = name := (Option.some.inj h).symm
            rw [hx]; exact hwn
          · intro e he
            exact absurd he (by simp [Module.empty])
          · simp [Module.empty]
        · intro M hM
          obtain ⟨_, _, hen, hso⟩ := hM
          refine ⟨Or.inl (by simp), ?_, hen, hso⟩
          intro x h
          have hx : x = name := (Option.some.inj h).symm
          rw [hx]; exact hwn
      · exact insertModule_sorted module _ acc hsort

/-- The whole collation pass yields well-formed modules in strictly sorted
key order. -/
theorem collectModules_props :
    ∀ (ds : List JsItem), (∀ d ∈ ds, JsItem.wellNamed d) →
      ∀ acc : List (ItemStr × Module), (∀ p ∈ acc, ModOk p) →
        List.Pairwise (fun p q => strLt p.1 q.1 = true) acc →
        (∀ p ∈ ds.foldl collectStep acc, ModOk p)
          ∧ List.Pairwise (fun p q => strLt p.1 q.1 = true) (ds.foldl collectStep acc) := by
  intro ds
  induction ds with
  | nil => intro _ acc h1 h2; exact ⟨h1, h2⟩
  | cons d rest ih =>
      intro hwn acc h1 h2
      have hstep := collectStep_props acc d (hwn d (by simp)) h1 h2
      exact ih (fun x hx => hwn x (by simp [hx])) _ hstep.1 hstep.2

/-- Rendering the preamble from a mid-line sink at indentation zero: each
pushed statement lands on its own fresh line. -/
theorem run_preamble_mid :
    ∀ ms : List (ItemStr × Module), ms ≠ [] → (∀ p ∈ ms, ModOk p) →
      ∀ (tail : List (Item JsItem)) (buf : String),
        formatLoop jsHooks (preambleItems ms ++ tail) [Frame.base]
            (⟨buf, 0, PendingLine.mid, false⟩ : Formatter)
          = formatLoop jsHooks tail [Frame.base]
              (⟨buf ++ "\n" ++ importsSpec ms, 0, PendingLine.mid, false⟩ : Formatter) := by
  intro ms
  induction ms with
  | nil => intro h; exact absurd rfl h
  | cons p rest ih =>
      intro _ hall tail buf
      obtain ⟨m, M⟩ := p
      obtain ⟨hM, hd, hels, _⟩ := hall (m, M) (by simp)
      have hs := stmtSpec_ne_empty m M
      have hsink : (Formatter.push (⟨buf, 0, PendingLine.mid, false⟩ : Formatter)).writeStr
          (importStatementSpec m M)
          = (⟨buf ++ "\n" ++ importStatementSpec m M, 0, PendingLine.mid, false⟩
              : Formatter) := by
        show Formatter.writeStr (⟨buf, 0, PendingLine.pendPush, false⟩ : Formatter) _ = _
        simp only [Formatter.writeStr]
        rw [if_neg hs]
        have hft : Formatter.flushText
            (⟨buf, 0, PendingLine.pendPush, false⟩ : Formatter) = "\n" := rfl
        rw [hft]
      cases rest with
      | nil =>
          have hpre : preambleItems [(m, M)] ++ tail
              = (Item.push :: stmtItems (m, M)) ++ tail := by
            simp [preambleItems]
          rw [hpre, run_stmt m M hM hd hels tail _, hsink]
          rfl
      | cons q rest2 =>
          have hpre : preambleItems ((m, M) :: q :: rest2) ++ tail
              = (Item.push :: stmtItems (m, M)) ++ (preambleItems (q :: rest2) ++ tail) := by
            simp [preambleItems]
          rw [hpre, run_stmt m M hM hd hels _ _, hsink,
            ih (by simp) (fun x hx => hall x (by simp [hx])) tail _]
          congr 2
          rw [show importsSpec ((m, M) :: q :: rest2)
              = importStatementSpec m M ++ "\n" ++ importsSpec (q :: rest2) from rfl]
          simp only [String.append_assoc]

/-- Rendering the preamble from a fresh sink: the first statement starts the
output, each later one lands on its own fresh line. -/
theorem run_preamble_init (ms : List (ItemStr × Module)) (hne : ms ≠ [])
    (hall : ∀ p ∈ ms, ModOk p) (tail : List (Item JsItem)) :
    formatLoop jsHooks (preambleItems ms ++ tail) [Frame.base] Formatter.init
      = formatLoop jsHooks tail [Frame.base]
          (⟨importsSpec ms, 0, PendingLine.mid, false⟩ : Formatter) := by
  cases ms with
  | nil => exact absurd rfl hne
  | cons p rest =>
      obtain ⟨m, M⟩ := p
      obtain ⟨hM, hd, hels, _⟩ := hall (m, M) (by simp)
      have hs := stmtSpec_ne_empty m M
      have hsink : (Formatter.push Formatter.init).writeStr (importStatementSpec m M)
          = (⟨importStatementSpec m M, 0, PendingLine.mid, false⟩ : Formatter) := by
        show Formatter.writeStr (⟨"", 0, PendingLine.start, false⟩ : Formatter) _ = _
        simp only [Formatter.writeStr]
        rw [if_neg hs]
        have hft : Formatter.flushText
            (⟨"", 0, PendingLine.start, false⟩ : Formatter) = "" := rfl
        rw [hft, show (("" : String) ++ "") = "" from rfl, str_empty_append]
      cases rest with
      | nil =>
          have hpre : preambleItems [(m, M)] ++ tail
              = (Item.push :: stmtItems (m, M)) ++ tail := by
            simp [preambleItems]
          rw [hpre, run_stmt m M hM hd hels tail _, hsink]
          rfl
      | cons q rest2 =>
          have hpre : preambleItems ((m, M) :: q :: rest2) ++ tail
              = (Item.push :: stmtItems (m, M)) ++ (preambleItems (q :: rest2) ++ tail) := by
            simp [preambleItems]
          rw [hpre, run_stmt m M hM hd hels _ _, hsink,
            run_preamble_mid (q :: rest2) (by simp) (fun x hx => hall x (by simp [hx]))
              tail _]
          congr 2

/-- C7: the collation pass renders exactly one import statement per module —
the statement stream is one pushed statement per collated module (in strictly
sorted key order, so modules are distinct), each module's named set is
strictly sorted (hence deduplicated and lexically ordered) and non-empty
unless a default import is present (the brace block and the default part of
`importStatementSpec` render accordingly, each element as `name` or
`name as alias`); rendering the emitted block from a fresh sink produces
exactly the spec text of the statements, one per line, and leaves one pending
blank line before whatever follows. -/
theorem claim_C7_import_statements (t : Tokens JsItem)
    (hwn : ∀ d ∈ Tokens.walk_imports JsItem.as_import t, JsItem.wellNamed d)
    (hne : collectModules (Tokens.walk_imports JsItem.as_import t) ≠ []) :
    (JavaScript.imports t Tokens.new).stream
        = preambleItems (collectModules (Tokens.walk_imports JsItem.as_import t))
            ++ [Item.line]
    ∧ List.Pairwise (fun p q => strLt p.1 q.1 = true)
        (collectModules (Tokens.walk_imports JsItem.as_import t))
    ∧ (∀ p ∈ collectModules (Tokens.walk_imports JsItem.as_import t),
        (p.2.default_import ≠ none ∨ p.2.set ≠ [])
          ∧ List.Pairwise (fun a b => elLt a b = true) p.2.set)
    ∧ ∀ rest : List (Item JsItem),
        formatLoop jsHooks ((JavaScript.imports t Tokens.new).stream ++ rest)
            [Frame.base] Formatter.init
          = formatLoop jsHooks rest [Frame.base]
              (⟨importsSpec (collectModules (Tokens.walk_imports JsItem.as_import t)),
                0, PendingLine.pendLine, false⟩ : Formatter) := by
  have hprops := collectModules_props (Tokens.walk_imports JsItem.as_import t) hwn []
    (by simp) List.Pairwise.nil
  have hok : ∀ p ∈ collectModules (Tokens.walk_imports JsItem.as_import t), ModOk p :=
    hprops.1
  have hsort : List.Pairwise (fun p q => strLt p.1 q.1 = true)
      (collectModules (Tokens.walk_imports JsItem.as_import t)) := hprops.2
  have hall : ∀ p ∈ collectModules (Tokens.walk_imports JsItem.as_import t),
      p.2.default_import ≠ none ∨ p.2.set ≠ [] := fun p hp => (hok p hp).1
  have hstream := imports_stream t hall hne
  refine ⟨hstream, hsort, ?_, ?_⟩
  · intro p hp
    exact ⟨(hok p hp).1, (hok p hp).2.2.2⟩
  · intro rest
    rw [hstream, List.append_assoc,
      show ([Item.line] : List (Item JsItem)) ++ rest = Item.line :: rest from rfl,
      run_preamble_init _ hne hok (Item.line :: rest), step_line]
    rfl

/-- Witness for C7 at a concrete token stream: two modules, one with a
default import, a plain import and an aliased import (inserted unsorted),
one with a single plain import. -/
theorem claim_C7_witness :
    (JavaScript.imports
        (⟨[Item.langBox (JsItem.Import "z" "q" none),
           Item.langBox (JsItem.ImportDefault "m" "d"),
           Item.langBox (JsItem.Import "m" "a" (some "x")),
           Item.langBox (JsItem.Import "m" "b" none)]⟩ : Tokens JsItem) Tokens.new).stream
        = preambleItems (collectModules (Tokens.walk_imports JsItem.as_import
            (⟨[Item.langBox (JsItem.Import "z" "q" none),
               Item.langBox (JsItem.ImportDefault "m" "d"),
               Item.langBox (JsItem.Import "m" "a" (some "x")),
               Item.langBox (JsItem.Import "m" "b" none)]⟩ : Tokens JsItem)))
            ++ [Item.line]
    ∧ List.Pairwise (fun p q => strLt p.1 q.1 = true)
        (collectModules (Tokens.walk_imports JsItem.as_import
          (⟨[Item.langBox (JsItem.Import "z" "q" none),
             Item.langBox (JsItem.ImportDefault "m" "d"),
             Item.langBox (JsItem.Import "m" "a" (some "x")),
             Item.langBox (JsItem.Import "m" "b" none)]⟩ : Tokens JsItem)))
    ∧ (∀ p ∈ collectModules (Tokens.walk_imports JsItem.as_import
          (⟨[Item.langBox (JsItem.Import "z" "q" none),
             Item.langBox (JsItem.ImportDefault "m" "d"),
             Item.langBox (JsItem.Import "m" "a" (some "x")),
             Item.langBox (JsItem.Import "m" "b" none)]⟩ : Tokens JsItem)),
        (p.2.default_import ≠ none ∨ p.2.set ≠ [])
          ∧ List.Pairwise (fun a b => elLt a b = true) p.2.set)
    ∧ ∀ rest : List (Item JsItem),
        formatLoop jsHooks ((JavaScript.imports
            (⟨[Item.langBox (JsItem.Import "z" "q" none),
               Item.langBox (JsItem.ImportDefault "m" "d"),
               Item.langBox (JsItem.Import "m" "a" (some "x")),
               Item.langBox (JsItem.Import "m" "b" none)]⟩ : Tokens JsItem)
            Tokens.new).stream ++ rest)
            [Frame.base] Formatter.init
          = formatLoop jsHooks rest [Frame.base]
              (⟨importsSpec (collectModules (Tokens.walk_imports JsItem.as_import
                  (⟨[Item.langBox (JsItem.Import "z" "q" none),
                     Item.langBox (JsItem.ImportDefault "m" "d"),
                     Item.langBox (JsItem.Import "m" "a" (some "x")),
                     Item.langBox (JsItem.Import "m" "b" none)]⟩ : Tokens JsItem))),
                0, PendingLine.pendLine, false⟩ : Formatter) :=
  claim_C7_import_statements _
    (by
      intro d hd
      simp [Tokens.walk_imports, Tokens.stream, walkAll, projectItem,
        JsItem.as_import] at hd
      rcases hd with rfl | rfl | rfl | rfl
      · refine ⟨by decide, ?_⟩
        intro a h
        simp at h
      · refine ⟨by decide, ?_⟩
        intro a h
        injection h with h2
        rw [← h2]
        decide
      · show ("d" : ItemStr) ≠ ""
        decide
      · refine ⟨by decide, ?_⟩
        intro a h
        simp at h)
    (by decide)

end Genco
